import Mathlib

/-!
# Upper-limit search of `Hybrid::run` (src/src/Hybrid.cc)

A shallow embedding of the search in `Hybrid::run` and of the evaluator `Hybrid::eval`.

* C++ `double` values are modelled by rationals (exact arithmetic, no rounding): widths,
  midpoints and pass counts are those of exact arithmetic, and the rounding of doubles can
  shift a comparison that is decided by less than one unit in the last place.
* The parameter `r` (a `RooRealVar`) is a record with its range and its current value. The
  library keeps `getMin() ≤ getMax()`, clips every value passed to `setVal` into the range, and
  on `setMax` refuses a maximum below the minimum and clips the current value into the new
  range; the record and its two operations do the same.
* The toy-MC engine `HybridCalculatorOriginal` is an arbitrary state machine: `GetHypoTest` reads
  the current value of `r`, advances the engine state and returns a result or a null pointer.
* Every loop of the source is unbounded; the embedding runs each loop with a fuel counter and
  reports `Res.outOfFuel` when the counter is exhausted while the loop is still running.
* The workspace set-up of lines 32-51 (snapshot, nuisance configuration, test-statistic flavour,
  number of toys) only configures the engine and is not part of the search.
-/

namespace HybridLimit

/-- Estimate `(value, error)`: the `std::pair<double,double>` that the source names `CLs_t`. -/
abbrev CLs_t := ℚ × ℚ

/-- The parameter under test: `getMin()`, `getMax()` and `getVal()` of the `RooRealVar`. The
library never lets the maximum fall below the minimum. -/
structure RooRealVar where
  min : ℚ
  max : ℚ
  val : ℚ
  wf : min ≤ max
deriving DecidableEq

/-- The value the library stores when asked to store `v` in the range `[lo, hi]`: `v` itself
when it lies in the range, the bound it has passed otherwise. -/
def clip (lo hi v : ℚ) : ℚ := if v < lo then lo else if v > hi then hi else v

/-- Effect of `r->setVal(v)`: the value is clipped into `[getMin(), getMax()]`. -/
def RooRealVar.setVal (r : RooRealVar) (v : ℚ) : RooRealVar :=
  { r with val := clip r.min r.max v }

/-- Effect of `r->setMax(v)`: a proposed maximum below the minimum is replaced by the minimum,
and the current value is clipped into the new range. -/
def RooRealVar.setMax (r : RooRealVar) (v : ℚ) : RooRealVar :=
  if h : v < r.min then ⟨r.min, r.min, clip r.min r.min r.val, le_refl r.min⟩
  else ⟨r.min, v, clip r.min v r.val, not_lt.1 h⟩

/-- A parameter with range `[lo, hi]` and current value `v`; a maximum below the minimum is
replaced by the minimum, as the library does. -/
def rooVar (lo hi v : ℚ) : RooRealVar :=
  if h : hi < lo then ⟨lo, lo, v, le_refl lo⟩ else ⟨lo, hi, v, not_lt.1 h⟩

/-- How a call ends: it returns, it dereferences a null `HybridResult` (line 137 passes the
unchecked pointer `more.get()` to `Add`), or the fuel of the embedding ran out. -/
inductive Res (α : Type) where
  | ret (a : α)
  | nullDeref
  | outOfFuel
deriving DecidableEq, Repr

/-- The engine `RooStats::HybridCalculatorOriginal` together with the accessors of the
`HybridResult` objects it hands out. `σ` is the engine state (toys generated so far, random
stream), `ρ` the type of results. `GetHypoTest s v` is the call made while `r` has value `v`;
`none` is the null pointer. -/
structure HybridCalculatorOriginal (σ ρ : Type) where
  GetHypoTest : σ → ℚ → σ × Option ρ
  Add : ρ → ρ → ρ
  CLs : ρ → ℚ
  CLsError : ρ → ℚ
  CLsplusb : ρ → ℚ
  CLsplusbError : ρ → ℚ

/-- The option members of `Hybrid` (constructor, lines 10-21, and `applyOptions`). -/
structure Hybrid where
  nToys_ : Nat
  clsAccuracy_ : ℚ
  rAbsAccuracy_ : ℚ
  rRelAccuracy_ : ℚ
  CLs_ : Bool
  testStat_ : String
  rInterval_ : Bool

/-- The default values of the options (lines 13-19): 500 toys, `clsAcc = 0.005`,
`rAbsAcc = 0.1`, `rRelAcc = 0.05`, CLs, "LEP", no interval. -/
def Hybrid.defaults : Hybrid :=
  ⟨500, 1 / 200, 1 / 10, 1 / 20, true, "LEP", false⟩

/-- Mutable environment of one search: the parameter, the engine state, and the list of the
values of `r` at which `GetHypoTest` has been called so far (oldest first). -/
structure World (σ : Type) where
  r : RooRealVar
  hc : σ
  calls : List ℚ
deriving DecidableEq

/-- Lines 131-132 and 138-139: the pair `(clsMid, clsMidErr)` read off a result, CLs or
CLs+b according to `CLs_`. -/
def Hybrid.estimate {σ ρ : Type} (h : Hybrid) (C : HybridCalculatorOriginal σ ρ) (res : ρ) :
    CLs_t :=
  (if h.CLs_ then C.CLs res else C.CLsplusb res,
   if h.CLs_ then C.CLsError res else C.CLsplusbError res)

/-- Line 135: the condition of the adaptive `while`,
`fabs(clsMid-clsTarget) < 3*clsMidErr && clsMidErr >= clsAccuracy_`. -/
def Hybrid.wantsMore (h : Hybrid) (clsTarget : ℚ) (e : CLs_t) : Prop :=
  |e.1 - clsTarget| < 3 * e.2 ∧ e.2 ≥ h.clsAccuracy_

instance (h : Hybrid) (clsTarget : ℚ) (e : CLs_t) : Decidable (h.wantsMore clsTarget e) := by
  unfold Hybrid.wantsMore; infer_instance

/-- Lines 135-141: the adaptive `while` loop of `eval`. The extra batch is requested at the
current value of `r`; a null batch is handed to `Add` unchecked. -/
def Hybrid.adaptiveLoop {σ ρ : Type} (h : Hybrid) (C : HybridCalculatorOriginal σ ρ)
    (clsTarget : ℚ) : Nat → World σ → ρ → Res (World σ × ρ)
  | 0, _, _ => .outOfFuel
  | n + 1, w, hcResult =>
    if h.wantsMore clsTarget (h.estimate C hcResult) then
      match C.GetHypoTest w.hc w.r.val with
      | (_, none) => .nullDeref
      | (s, some more) =>
        Hybrid.adaptiveLoop h C clsTarget n
          { w with hc := s, calls := w.calls ++ [w.r.val] } (C.Add hcResult more)
    else .ret (w, hcResult)

/-- Lines 119-152: `Hybrid::eval(r, rVal, hc, adaptive, clsTarget)`. -/
def Hybrid.eval {σ ρ : Type} (h : Hybrid) (C : HybridCalculatorOriginal σ ρ) (fuel : Nat)
    (w : World σ) (rVal : ℚ) (adaptive : Bool) (clsTarget : ℚ) : Res (World σ × CLs_t) :=
  let r1 := w.r.setVal rVal
  match C.GetHypoTest w.hc r1.val with
  | (s, none) => .ret ({ r := r1, hc := s, calls := w.calls ++ [r1.val] }, (-1, -1))
  | (s, some hcResult) =>
    let w1 : World σ := { r := r1, hc := s, calls := w.calls ++ [r1.val] }
    if adaptive then
      match h.adaptiveLoop C clsTarget fuel w1 hcResult with
      | .ret (w2, res) => .ret (w2, h.estimate C res)
      | .nullDeref => .nullDeref
      | .outOfFuel => .outOfFuel
    else .ret (w1, h.estimate C hcResult)

/-- Lines 64-72: the bracket-expansion `for (;;)`. `rMax` is the value read at line 61. The
result carries `true` when the loop was left by `break` and `false` when line 70 returned
`false`. `eval` is called with its default arguments (not adaptive). -/
def Hybrid.expandLoop {σ ρ : Type} (h : Hybrid) (C : HybridCalculatorOriginal σ ρ)
    (cl rMax : ℚ) (fuel : Nat) : Nat → World σ → Res (World σ × Bool)
  | 0, _ => .outOfFuel
  | n + 1, w =>
    match h.eval C fuel w w.r.max false (-1) with
    | .ret (w1, clsMax) =>
      if clsMax.1 = 0 ∨ clsMax.1 + 3 * |clsMax.2| < cl then .ret (w1, true)
      else
        let w2 : World σ := { w1 with r := w1.r.setMax (w1.r.max * 2) }
        if w2.r.val / rMax ≥ 20 then .ret (w2, false)
        else Hybrid.expandLoop h C cl rMax fuel n w2
    | .nullDeref => .nullDeref
    | .outOfFuel => .outOfFuel

/-- The locals `rMin`, `rMax`, `clsMin`, `clsMax` of `run` (lines 60-61). -/
structure Bracket where
  rMin : ℚ
  rMax : ℚ
  clsMin : CLs_t
  clsMax : CLs_t
deriving DecidableEq, Repr

/-- Outcome of one pass through the body of the bisection `do`-loop (lines 78-92). -/
inductive Step (σ : Type) where
  | failed (w : World σ) (b : Bracket)
  | lucky (w : World σ) (b : Bracket) (clsMid : CLs_t)
  | next (w : World σ) (b : Bracket)
deriving DecidableEq

/-- Lines 78-92: evaluate the midpoint, test the failure sentinel, test the direct hit, and
otherwise move one edge of the bracket. -/
def Hybrid.bisectStep {σ ρ : Type} (h : Hybrid) (C : HybridCalculatorOriginal σ ρ)
    (clsTarget : ℚ) (fuel : Nat) (w : World σ) (b : Bracket) : Res (Step σ) :=
  match h.eval C fuel w (1 / 2 * (b.rMin + b.rMax)) true clsTarget with
  | .ret (w1, clsMid) =>
    if clsMid.2 = -1 then .ret (.failed w1 b)
    else if |clsMid.1 - clsTarget| ≤ h.clsAccuracy_ then .ret (.lucky w1 b clsMid)
    else if decide (clsMid.1 > clsTarget) = decide (b.clsMax.1 > clsTarget) then
      .ret (.next w1 { b with rMax := w1.r.val, clsMax := clsMid })
    else
      .ret (.next w1 { b with rMin := w1.r.val, clsMin := clsMid })
  | .nullDeref => .nullDeref
  | .outOfFuel => .outOfFuel

/-- Line 93: the condition of the `do ... while`. -/
def Hybrid.keepBisecting {σ : Type} (h : Hybrid) (w : World σ) (b : Bracket) : Prop :=
  b.rMax - b.rMin > max h.rAbsAccuracy_ (h.rRelAccuracy_ * w.r.val)

instance {σ : Type} (h : Hybrid) (w : World σ) (b : Bracket) :
    Decidable (h.keepBisecting w b) := by
  unfold Hybrid.keepBisecting; infer_instance

/-- Lines 77-93: the bisection `do ... while`. It ends with `Step.failed` (line 81),
`Step.lucky` (line 86) or with `Step.next` when the condition of line 93 is false. -/
def Hybrid.bisectLoop {σ ρ : Type} (h : Hybrid) (C : HybridCalculatorOriginal σ ρ)
    (clsTarget : ℚ) (fuel : Nat) : Nat → World σ → Bracket → Res (Step σ)
  | 0, _, _ => .outOfFuel
  | n + 1, w, b =>
    match h.bisectStep C clsTarget fuel w b with
    | .ret (.next w1 b1) =>
      if h.keepBisecting w1 b1 then Hybrid.bisectLoop h C clsTarget fuel n w1 b1
      else .ret (.next w1 b1)
    | other => other

/-- Lines 102-104: the low-side loop of the interval refinement. State: `r` (inside the
world), `rMin`, and the outer `clsMax`, which is the variable the body assigns. -/
def Hybrid.refineLow {σ ρ : Type} (h : Hybrid) (C : HybridCalculatorOriginal σ ρ)
    (clsTarget : ℚ) (fuel : Nat) (limit rBoundLow : ℚ) (clsMin : CLs_t) :
    Nat → World σ → ℚ → CLs_t → Res (World σ × ℚ × CLs_t)
  | 0, _, _, _ => .outOfFuel
  | n + 1, w, rMin, clsMax =>
    if w.r.val < rBoundLow ∧ |clsMin.1 - clsTarget| ≥ h.clsAccuracy_ then
      match h.eval C fuel w (1 / 2 * (w.r.val + limit)) true clsTarget with
      | .ret (w1, c) => Hybrid.refineLow h C clsTarget fuel limit rBoundLow clsMin n w1 w1.r.val c
      | .nullDeref => .nullDeref
      | .outOfFuel => .outOfFuel
    else .ret (w, rMin, clsMax)

/-- Lines 107-109: the high-side loop of the interval refinement. -/
def Hybrid.refineHigh {σ ρ : Type} (h : Hybrid) (C : HybridCalculatorOriginal σ ρ)
    (clsTarget : ℚ) (fuel : Nat) (limit rBoundHigh : ℚ) :
    Nat → World σ → ℚ → CLs_t → Res (World σ × ℚ × CLs_t)
  | 0, _, _, _ => .outOfFuel
  | n + 1, w, rMax, clsMax =>
    if w.r.val > rBoundHigh ∧ |clsMax.1 - clsTarget| ≥ h.clsAccuracy_ then
      match h.eval C fuel w (1 / 2 * (w.r.val + limit)) true clsTarget with
      | .ret (w1, c) => Hybrid.refineHigh h C clsTarget fuel limit rBoundHigh n w1 w1.r.val c
      | .nullDeref => .nullDeref
      | .outOfFuel => .outOfFuel
    else .ret (w, rMax, clsMax)

/-- Lines 97-110: the interval refinement around `limit`, entered with bracket `b`. Returns
the world and the refined `rMin`, `rMax`. -/
def Hybrid.refine {σ ρ : Type} (h : Hybrid) (C : HybridCalculatorOriginal σ ρ)
    (clsTarget : ℚ) (fuel : Nat) (limit : ℚ) (w : World σ) (b : Bracket) :
    Res (World σ × Bracket) :=
  let rBoundLow := limit - 1 / 2 * max h.rAbsAccuracy_ (h.rRelAccuracy_ * limit)
  match h.refineLow C clsTarget fuel limit rBoundLow b.clsMin fuel
      { w with r := w.r.setVal b.rMin } b.rMin b.clsMax with
  | .ret (w1, rMin, clsMax1) =>
    let rBoundHigh := limit + 1 / 2 * max h.rAbsAccuracy_ (h.rRelAccuracy_ * limit)
    match h.refineHigh C clsTarget fuel limit rBoundHigh fuel
        { w1 with r := w1.r.setVal b.rMax } b.rMax clsMax1 with
    | .ret (w2, rMax, clsMax2) =>
      .ret (w2, { b with rMin := rMin, rMax := rMax, clsMax := clsMax2 })
    | .nullDeref => .nullDeref
    | .outOfFuel => .outOfFuel
  | .nullDeref => .nullDeref
  | .outOfFuel => .outOfFuel

/-- Lines 53-55: a hint above `getMin()` lowers the maximum to `min(3*hint, getMax())`. -/
def applyHint (r : RooRealVar) (hint : Option ℚ) : RooRealVar :=
  match hint with
  | some x => if x > r.min then r.setMax (Min.min (3 * x) r.max) else r
  | none => r

/-- What `run` leaves behind: the returned `bool`, the reference parameter `limit`, the world,
the locals `rMin`, `rMax`, `clsMin`, `clsMax`, and the local `lucky`. -/
structure RunOut (σ : Type) where
  ok : Bool
  limit : ℚ
  w : World σ
  b : Bracket
  lucky : Bool
deriving DecidableEq

/-- Lines 53-116: `Hybrid::run`. `cl` is the global confidence level, `limit` the value the
caller's variable holds on entry, `hint` the optional hint (`none` for a null pointer). -/
def Hybrid.run {σ ρ : Type} (h : Hybrid) (C : HybridCalculatorOriginal σ ρ) (cl : ℚ)
    (fuel : Nat) (w0 : World σ) (limit : ℚ) (hint : Option ℚ) : Res (RunOut σ) :=
  let r0 := applyHint w0.r hint
  let clsTarget := 1 - cl
  let b0 : Bracket := ⟨0, r0.max, (1, 0), (0, 0)⟩
  match h.expandLoop C cl b0.rMax fuel fuel { w0 with r := r0 } with
  | .ret (w1, false) => .ret ⟨false, limit, w1, b0, false⟩
  | .ret (w1, true) =>
    match h.bisectLoop C clsTarget fuel fuel w1 { b0 with rMax := w1.r.max } with
    | .ret (.failed w2 b) => .ret ⟨false, limit, w2, b, false⟩
    | .ret (.lucky w2 b _) =>
      if h.rInterval_ then
        match h.refine C clsTarget fuel w2.r.val w2 b with
        | .ret (w3, b3) => .ret ⟨true, w2.r.val, w3, b3, true⟩
        | .nullDeref => .nullDeref
        | .outOfFuel => .outOfFuel
      else .ret ⟨true, w2.r.val, w2, b, true⟩
    | .ret (.next w2 b) => .ret ⟨true, 1 / 2 * (b.rMax + b.rMin), w2, b, false⟩
    | .nullDeref => .nullDeref
    | .outOfFuel => .outOfFuel
  | .nullDeref => .nullDeref
  | .outOfFuel => .outOfFuel

/-- A stateless engine with zero error whose statistic at `r` is `stat r`: the result object is
the point itself, merging keeps the first batch. -/
def exactOracle (stat : ℚ → ℚ) : HybridCalculatorOriginal Unit ℚ where
  GetHypoTest := fun s v => (s, some v)
  Add := fun a _ => a
  CLs := stat
  CLsError := fun _ => 0
  CLsplusb := stat
  CLsplusbError := fun _ => 0

/-- The synthetic statistic `max(0, 1 - r/k)` of the testable properties. -/
def linearStat (k : ℚ) (r : ℚ) : ℚ := Max.max 0 (1 - r / k)

/-- Initial world for a stateless engine: `r` ranges over `[0, rMax]`, no call made yet. -/
def startWorld (rMax : ℚ) : World Unit := ⟨rooVar 0 rMax 0, (), []⟩

/-- An engine that returns the null pointer on its `N`-th call and only there. Its state is
the number of calls made so far; its results have zero error and statistic `stat`. -/
def failingOracle (N : Nat) (stat : ℚ → ℚ) : HybridCalculatorOriginal Nat ℚ where
  GetHypoTest := fun n v => (n + 1, if n + 1 = N then none else some v)
  Add := fun a _ => a
  CLs := stat
  CLsError := fun _ => 0
  CLsplusb := stat
  CLsplusbError := fun _ => 0

/-- An engine with the fixed statistic `v` whose error is `e` for one batch and shrinks by the
factor `q` with every batch merged in. A result is the number of batches it holds. -/
def shrinkingOracle (v e q : ℚ) : HybridCalculatorOriginal Unit Nat where
  GetHypoTest := fun s _ => (s, some 1)
  Add := fun a b => a + b
  CLs := fun _ => v
  CLsError := fun n => e * q ^ (n - 1)
  CLsplusb := fun _ => v
  CLsplusbError := fun n => e * q ^ (n - 1)

/-- The engine state and the merged result after `n` further batches have been requested at
the value `v` and merged, in order, into `res`; `none` when one of these batches is null. -/
def moreBatches {σ ρ : Type} (C : HybridCalculatorOriginal σ ρ) (v : ℚ) :
    Nat → σ → ρ → Option (σ × ρ)
  | 0, s, res => some (s, res)
  | n + 1, s, res =>
    match C.GetHypoTest s v with
    | (_, none) => none
    | (s1, some more) => moreBatches C v n s1 (C.Add res more)

/-- The world and bracket at the head of the `k`-th pass through the bisection loop, counting
from `0`; `none` when the loop has been left before that pass. -/
def Hybrid.bisectIter {σ ρ : Type} (h : Hybrid) (C : HybridCalculatorOriginal σ ρ)
    (clsTarget : ℚ) (fuel : Nat) : Nat → World σ → Bracket → Option (World σ × Bracket)
  | 0, w, b => some (w, b)
  | k + 1, w, b =>
    match h.bisectStep C clsTarget fuel w b with
    | .ret (.next w1 b1) =>
      if h.keepBisecting w1 b1 then Hybrid.bisectIter h C clsTarget fuel k w1 b1 else none
    | _ => none

/-- The bracket a pass through the bisection body leaves behind. -/
def Step.bracket {σ : Type} : Step σ → Bracket
  | .failed _ b => b
  | .lucky _ b _ => b
  | .next _ b => b

/-- How `applyOptions` ends: it returns, or it reaches the `abort()` of line 27. Either way
the object holds the options as they were left. -/
inductive Applied where
  | accepted (h : Hybrid)
  | aborted (h : Hybrid)

/-- The option members after `applyOptions`. -/
def Applied.options : Applied → Hybrid
  | .accepted h => h
  | .aborted h => h

/-- Whether `applyOptions` returned rather than aborted. -/
def Applied.isAccepted : Applied → Bool
  | .accepted _ => true
  | .aborted _ => false

/-- Lines 23-29: `Hybrid::applyOptions(vm)`. `count` is `vm.count("rInterval")`, converted to
`bool` by the assignment of line 24; `testStat_` has been stored by the option parser. -/
def Hybrid.applyOptions (h : Hybrid) (count : Nat) : Applied :=
  let h1 : Hybrid := { h with rInterval_ := decide (count ≠ 0) }
  if h1.testStat_ ≠ "LEP" ∧ h1.testStat_ ≠ "TEV" then .aborted h1 else .accepted h1

/-- A statistic that is `0` from `2` upwards and `0.05` below. -/
def cutStat (r : ℚ) : ℚ := if r ≥ 2 then 0 else 1 / 20

/-- A statistic on `[0, 1]` for the refinement examples: `0` at `1`, `0.05` at `1/2`, `lo`
below `1/2` and `1` between `1/2` and `1`. -/
def stepStat (lo : ℚ) (r : ℚ) : ℚ :=
  if r = 1 then 0 else if r = 1 / 2 then 1 / 20 else if r < 1 / 2 then lo else 1

/-- The default options with the `rInterval` flag given. -/
def Hybrid.defaultsWithInterval : Hybrid := { Hybrid.defaults with rInterval_ := true }

/-- The world a pass through the bisection body leaves behind. -/
def Step.world {σ : Type} : Step σ → World σ
  | .failed w _ => w
  | .lucky w _ _ => w
  | .next w _ => w

/-- The bracket is ordered and its upper edge lies in the range of `r`. -/
def BracketOk {σ : Type} (w : World σ) (b : Bracket) : Prop :=
  b.rMin ≤ b.rMax ∧ w.r.min ≤ b.rMax ∧ b.rMax ≤ w.r.max

/-- The bracket is ordered and lies in the range of `r` with both edges, so that no midpoint
of it is clipped. -/
def BracketInRange {σ : Type} (w : World σ) (b : Bracket) : Prop :=
  w.r.min ≤ b.rMin ∧ b.rMin ≤ b.rMax ∧ b.rMax ≤ w.r.max

/-! ## Fuel

A call that ends within some fuel ends in the same way with any larger fuel. -/

section Fuel

variable {σ ρ : Type}

theorem adaptiveLoop_mono (h : Hybrid) (C : HybridCalculatorOriginal σ ρ) (t : ℚ) :
    ∀ (n m : Nat) (w : World σ) (res : ρ) (x : Res (World σ × ρ)), n ≤ m →
      h.adaptiveLoop C t n w res = x → x ≠ .outOfFuel → h.adaptiveLoop C t m w res = x := by
  intro n
  induction n with
  | zero =>
    intro m w res x _ hx hne
    simp only [Hybrid.adaptiveLoop] at hx
    exact absurd hx.symm hne
  | succ n ih =>
    intro m w res x hle hx hne
    obtain ⟨m', rfl⟩ : ∃ m', m = m' + 1 := ⟨m - 1, by omega⟩
    simp only [Hybrid.adaptiveLoop] at hx ⊢
    by_cases hc : h.wantsMore t (h.estimate C res)
    · simp only [hc, if_true] at hx ⊢
      rcases hg : C.GetHypoTest w.hc w.r.val with ⟨s, _ | more⟩
      · simp only [hg] at hx ⊢; exact hx
      · simp only [hg] at hx ⊢
        exact ih m' _ _ _ (by omega) hx hne
    · simp only [hc, if_false] at hx ⊢; exact hx

theorem eval_mono (h : Hybrid) (C : HybridCalculatorOriginal σ ρ) (n m : Nat) (w : World σ)
    (v : ℚ) (a : Bool) (t : ℚ) (x : Res (World σ × CLs_t)) (hle : n ≤ m)
    (hx : h.eval C n w v a t = x) (hne : x ≠ .outOfFuel) : h.eval C m w v a t = x := by
  simp only [Hybrid.eval] at hx ⊢
  rcases hg : C.GetHypoTest w.hc (w.r.setVal v).val with ⟨s, _ | res⟩
  · simp only [hg] at hx ⊢; exact hx
  · simp only [hg] at hx ⊢
    cases a
    · simpa using hx
    · simp only [if_true] at hx ⊢
      cases hl : h.adaptiveLoop C t n ⟨w.r.setVal v, s, w.calls ++ [(w.r.setVal v).val]⟩ res with
      | ret p =>
        rw [adaptiveLoop_mono h C t n m _ _ _ hle hl (by simp)]
        rw [hl] at hx; exact hx
      | nullDeref =>
        rw [adaptiveLoop_mono h C t n m _ _ _ hle hl (by simp)]
        rw [hl] at hx; exact hx
      | outOfFuel =>
        rw [hl] at hx; exact absurd hx.symm hne

theorem expandLoop_mono (h : Hybrid) (C : HybridCalculatorOriginal σ ρ) (cl rMax : ℚ)
    (f f' : Nat) (hf : f ≤ f') :
    ∀ (n m : Nat) (w : World σ) (x : Res (World σ × Bool)), n ≤ m →
      h.expandLoop C cl rMax f n w = x → x ≠ .outOfFuel →
      h.expandLoop C cl rMax f' m w = x := by
  intro n
  induction n with
  | zero =>
    intro m w x _ hx hne
    simp only [Hybrid.expandLoop] at hx
    exact absurd hx.symm hne
  | succ n ih =>
    intro m w x hle hx hne
    obtain ⟨m', rfl⟩ : ∃ m', m = m' + 1 := ⟨m - 1, by omega⟩
    simp only [Hybrid.expandLoop] at hx ⊢
    cases he : h.eval C f w w.r.max false (-1) with
    | ret p =>
      rw [eval_mono h C f f' _ _ _ _ _ hf he (by simp)]
      rw [he] at hx
      obtain ⟨w1, c⟩ := p
      simp only at hx ⊢
      split_ifs at hx ⊢ with h1 h2
      · exact hx
      · exact hx
      · exact ih m' _ _ (by omega) hx hne
    | nullDeref =>
      rw [eval_mono h C f f' _ _ _ _ _ hf he (by simp)]
      rw [he] at hx; exact hx
    | outOfFuel =>
      rw [he] at hx; exact absurd hx.symm hne

theorem bisectStep_mono (h : Hybrid) (C : HybridCalculatorOriginal σ ρ) (t : ℚ)
    (f f' : Nat) (hf : f ≤ f') (w : World σ) (b : Bracket) (x : Res (Step σ))
    (hx : h.bisectStep C t f w b = x) (hne : x ≠ .outOfFuel) :
    h.bisectStep C t f' w b = x := by
  simp only [Hybrid.bisectStep] at hx ⊢
  cases he : h.eval C f w (1 / 2 * (b.rMin + b.rMax)) true t with
  | ret p =>
    rw [eval_mono h C f f' _ _ _ _ _ hf he (by simp)]
    rw [he] at hx; exact hx
  | nullDeref =>
    rw [eval_mono h C f f' _ _ _ _ _ hf he (by simp)]
    rw [he] at hx; exact hx
  | outOfFuel =>
    rw [he] at hx; exact absurd hx.symm hne

theorem bisectLoop_mono (h : Hybrid) (C : HybridCalculatorOriginal σ ρ) (t : ℚ)
    (f f' : Nat) (hf : f ≤ f') :
    ∀ (n m : Nat) (w : World σ) (b : Bracket) (x : Res (Step σ)), n ≤ m →
      h.bisectLoop C t f n w b = x → x ≠ .outOfFuel →
      h.bisectLoop C t f' m w b = x := by
  intro n
  induction n with
  | zero =>
    intro m w b x _ hx hne
    simp only [Hybrid.bisectLoop] at hx
    exact absurd hx.symm hne
  | succ n ih =>
    intro m w b x hle hx hne
    obtain ⟨m', rfl⟩ : ∃ m', m = m' + 1 := ⟨m - 1, by omega⟩
    simp only [Hybrid.bisectLoop] at hx ⊢
    cases hs : h.bisectStep C t f w b with
    | ret s =>
      rw [bisectStep_mono h C t f f' hf _ _ _ hs (by simp)]
      rw [hs] at hx
      cases s with
      | next w1 b1 =>
        simp only at hx ⊢
        split_ifs at hx ⊢ with hk
        · exact ih m' _ _ _ (by omega) hx hne
        · exact hx
      | failed w1 b1 => exact hx
      | lucky w1 b1 c => exact hx
    | nullDeref =>
      rw [bisectStep_mono h C t f f' hf _ _ _ hs (by simp)]
      rw [hs] at hx; exact hx
    | outOfFuel =>
      rw [hs] at hx; simp only at hx; exact absurd hx.symm hne

theorem refineLow_mono (h : Hybrid) (C : HybridCalculatorOriginal σ ρ) (t : ℚ)
    (f f' : Nat) (hf : f ≤ f') (limit bound : ℚ) (clsMin : CLs_t) :
    ∀ (n m : Nat) (w : World σ) (e : ℚ) (c : CLs_t) (x : Res (World σ × ℚ × CLs_t)), n ≤ m →
      h.refineLow C t f limit bound clsMin n w e c = x → x ≠ .outOfFuel →
      h.refineLow C t f' limit bound clsMin m w e c = x := by
  intro n
  induction n with
  | zero =>
    intro m w e c x _ hx hne
    simp only [Hybrid.refineLow] at hx
    exact absurd hx.symm hne
  | succ n ih =>
    intro m w e c x hle hx hne
    obtain ⟨m', rfl⟩ : ∃ m', m = m' + 1 := ⟨m - 1, by omega⟩
    simp only [Hybrid.refineLow] at hx ⊢
    split_ifs at hx ⊢ with hc
    · cases he : h.eval C f w (1 / 2 * (w.r.val + limit)) true t with
      | ret p =>
        rw [eval_mono h C f f' _ _ _ _ _ hf he (by simp)]
        rw [he] at hx
        exact ih m' _ _ _ _ (by omega) hx hne
      | nullDeref =>
        rw [eval_mono h C f f' _ _ _ _ _ hf he (by simp)]
        rw [he] at hx; exact hx
      | outOfFuel =>
        rw [he] at hx; exact absurd hx.symm hne
    · exact hx

theorem refineHigh_mono (h : Hybrid) (C : HybridCalculatorOriginal σ ρ) (t : ℚ)
    (f f' : Nat) (hf : f ≤ f') (limit bound : ℚ) :
    ∀ (n m : Nat) (w : World σ) (e : ℚ) (c : CLs_t) (x : Res (World σ × ℚ × CLs_t)), n ≤ m →
      h.refineHigh C t f limit bound n w e c = x → x ≠ .outOfFuel →
      h.refineHigh C t f' limit bound m w e c = x := by
  intro n
  induction n with
  | zero =>
    intro m w e c x _ hx hne
    simp only [Hybrid.refineHigh] at hx
    exact absurd hx.symm hne
  | succ n ih =>
    intro m w e c x hle hx hne
    obtain ⟨m', rfl⟩ : ∃ m', m = m' + 1 := ⟨m - 1, by omega⟩
    simp only [Hybrid.refineHigh] at hx ⊢
    split_ifs at hx ⊢ with hc
    · cases he : h.eval C f w (1 / 2 * (w.r.val + limit)) true t with
      | ret p =>
        rw [eval_mono h C f f' _ _ _ _ _ hf he (by simp)]
        rw [he] at hx
        exact ih m' _ _ _ _ (by omega) hx hne
      | nullDeref =>
        rw [eval_mono h C f f' _ _ _ _ _ hf he (by simp)]
        rw [he] at hx; exact hx
      | outOfFuel =>
        rw [he] at hx; exact absurd hx.symm hne
    · exact hx

theorem refine_mono (h : Hybrid) (C : HybridCalculatorOriginal σ ρ) (t : ℚ)
    (f f' : Nat) (hf : f ≤ f') (limit : ℚ) (w : World σ) (b : Bracket)
    (x : Res (World σ × Bracket)) (hx : h.refine C t f limit w b = x) (hne : x ≠ .outOfFuel) :
    h.refine C t f' limit w b = x := by
  simp only [Hybrid.refine] at hx ⊢
  cases hl : h.refineLow C t f limit
      (limit - 1 / 2 * max h.rAbsAccuracy_ (h.rRelAccuracy_ * limit)) b.clsMin f
      { w with r := w.r.setVal b.rMin } b.rMin b.clsMax with
  | ret p =>
    rw [refineLow_mono h C t f f' hf _ _ _ f f' _ _ _ _ hf hl (by simp)]
    rw [hl] at hx
    obtain ⟨w1, rMin, c1⟩ := p
    simp only at hx ⊢
    cases hh : h.refineHigh C t f limit
        (limit + 1 / 2 * max h.rAbsAccuracy_ (h.rRelAccuracy_ * limit)) f
        { w1 with r := w1.r.setVal b.rMax } b.rMax c1 with
    | ret q =>
      rw [refineHigh_mono h C t f f' hf _ _ f f' _ _ _ _ hf hh (by simp)]
      rw [hh] at hx; exact hx
    | nullDeref =>
      rw [refineHigh_mono h C t f f' hf _ _ f f' _ _ _ _ hf hh (by simp)]
      rw [hh] at hx; exact hx
    | outOfFuel =>
      rw [hh] at hx; exact absurd hx.symm hne
  | nullDeref =>
    rw [refineLow_mono h C t f f' hf _ _ _ f f' _ _ _ _ hf hl (by simp)]
    rw [hl] at hx; exact hx
  | outOfFuel =>
    rw [hl] at hx; exact absurd hx.symm hne

theorem run_mono (h : Hybrid) (C : HybridCalculatorOriginal σ ρ) (cl : ℚ)
    (f f' : Nat) (hf : f ≤ f') (w0 : World σ) (limit : ℚ) (hint : Option ℚ)
    (x : Res (RunOut σ)) (hx : h.run C cl f w0 limit hint = x) (hne : x ≠ .outOfFuel) :
    h.run C cl f' w0 limit hint = x := by
  simp only [Hybrid.run] at hx ⊢
  cases he : h.expandLoop C cl (applyHint w0.r hint).max f f
      { w0 with r := applyHint w0.r hint } with
  | ret p =>
    rw [expandLoop_mono h C cl _ f f' hf f f' _ _ hf he (by simp)]
    rw [he] at hx
    obtain ⟨w1, ok⟩ := p
    cases ok with
    | false => exact hx
    | true =>
      simp only at hx ⊢
      cases hb : h.bisectLoop C (1 - cl) f f w1
          { rMin := 0, rMax := w1.r.max, clsMin := (1, 0), clsMax := (0, 0) } with
      | ret s =>
        rw [bisectLoop_mono h C _ f f' hf f f' _ _ _ hf hb (by simp)]
        rw [hb] at hx
        cases s with
        | failed w2 b => exact hx
        | next w2 b => exact hx
        | lucky w2 b c =>
          simp only at hx ⊢
          split_ifs at hx ⊢ with hi
          · cases hr : h.refine C (1 - cl) f w2.r.val w2 b with
            | ret q =>
              rw [refine_mono h C _ f f' hf _ _ _ _ hr (by simp)]
              rw [hr] at hx; exact hx
            | nullDeref =>
              rw [refine_mono h C _ f f' hf _ _ _ _ hr (by simp)]
              rw [hr] at hx; exact hx
            | outOfFuel =>
              rw [hr] at hx; exact absurd hx.symm hne
          · exact hx
      | nullDeref =>
        rw [bisectLoop_mono h C _ f f' hf f f' _ _ _ hf hb (by simp)]
        rw [hb] at hx; exact hx
      | outOfFuel =>
        rw [hb] at hx; exact absurd hx.symm hne
  | nullDeref =>
    rw [expandLoop_mono h C cl _ f f' hf f f' _ _ hf he (by simp)]
    rw [he] at hx; exact hx
  | outOfFuel =>
    rw [he] at hx; exact absurd hx.symm hne

end Fuel

/-! ## The example scenario and the threshold of the bracket expansion -/

/-- C1, evaluated on the code: in the example scenario (`cl = 0.95`, statistic
`max(0, 1 - r/5)` with zero error, initial `rMax = 1`, no hint, default tolerances) the
threshold test of line 66 compares the statistic with `cl` and passes at the first evaluation
(`0.8 < 0.95`), so `rMax` is never doubled and stays at `1`; bisection then runs inside
`[0, 1]` and `run` returns `true` with the limit `31/32`, which is not within
`max(rAbsAcc, rRelAcc * 4.75)` of `4.75`. -/
theorem example_scenario_bracket_not_expanded (n : Nat) :
    Hybrid.defaults.expandLoop (exactOracle (linearStat 5)) (19 / 20) 1 (n + 4) (n + 4)
        (startWorld 1)
      = .ret (⟨rooVar 0 1 1, (), [1]⟩, true)
    ∧ Hybrid.defaults.run (exactOracle (linearStat 5)) (19 / 20) (n + 4) (startWorld 1) 0 none
      = .ret ⟨true, 31 / 32, ⟨rooVar 0 1 (15 / 16), (), [1, 1 / 2, 3 / 4, 7 / 8, 15 / 16]⟩,
          ⟨15 / 16, 1, (13 / 16, 0), (0, 0)⟩, false⟩
    ∧ ¬ (|(31 / 32 : ℚ) - 19 / 4| ≤ max (1 / 10) (1 / 20 * (19 / 4))) := by
  refine ⟨?_, ?_, ?_⟩
  · exact expandLoop_mono _ _ _ _ 4 (n + 4) (by omega) 4 (n + 4) _ _ (by omega)
      (by decide!) (by simp)
  · exact run_mono _ _ _ 4 (n + 4) (by omega) _ _ _ _ (by decide!) (by simp)
  · norm_num [abs_le]

/-- C2, evaluated on the code: the statistic `max(0, 1 - r/10)` is monotone non-increasing
and exceeds `clsTarget = 0.1` at `0`, the confidence level `0.9` lies in `(0,1)`, and with
initial `rMax = 2` the bracket-expansion loop breaks at its first evaluation with the final
`rMax = 2`, where the statistic is `0.8`, above `clsTarget`. -/
theorem expansion_breaks_above_target (n : Nat) :
    (∀ a b : ℚ, a ≤ b → linearStat 10 b ≤ linearStat 10 a)
    ∧ linearStat 10 0 > 1 - 9 / 10
    ∧ Hybrid.defaults.expandLoop (exactOracle (linearStat 10)) (9 / 10) 2 (n + 1) (n + 1)
        (startWorld 2)
      = .ret (⟨rooVar 0 2 2, (), [2]⟩, true)
    ∧ ¬ (linearStat 10 2 ≤ 1 - 9 / 10) := by
  refine ⟨?_, ?_, ?_, ?_⟩
  · intro a b hab
    unfold linearStat
    exact max_le_max le_rfl (by linarith [div_le_div_of_nonneg_right hab (by norm_num : (0:ℚ) ≤ 10)])
  · norm_num [linearStat]
  · exact expandLoop_mono _ _ _ _ 1 (n + 1) (by omega) 1 (n + 1) _ _ (by omega)
      (by decide!) (by simp)
  · norm_num [linearStat]

/-- C3, evaluated on the code: an engine that fails on its first call (the first
bracket-expansion evaluation, at `r = 1`) and returns statistic `0` afterwards. `run` does
not return `false` there: the sentinel `(-1,-1)` fails the test of line 66, `rMax` is doubled
and six further calls are issued (at `2, 1, 1/2, 1/4, 1/8, 1/16`); `run` returns `true` with
the limit `1/32`. -/
theorem failure_in_expansion_not_propagated (n : Nat) :
    Hybrid.defaults.run (failingOracle 1 (fun _ => 0)) (19 / 20) (n + 5) ⟨rooVar 0 1 0, 0, []⟩ 0 none
      = .ret ⟨true, 1 / 32, ⟨rooVar 0 2 (1 / 16), 7, [1, 2, 1, 1 / 2, 1 / 4, 1 / 8, 1 / 16]⟩,
          ⟨0, 1 / 16, (1, 0), (0, 0)⟩, false⟩
    ∧ ((failingOracle 1 (fun _ => 0)).GetHypoTest 0 1).2 = none := by
  refine ⟨?_, by decide⟩
  exact run_mono _ _ _ 5 (n + 5) (by omega) _ _ _ _ (by decide!) (by simp)

/-! ## Elementary facts about the parameter, `eval` and the bracket expansion -/

section Basics

variable {σ ρ : Type}

theorem clip_of_mem (lo hi v : ℚ) (h1 : lo ≤ v) (h2 : v ≤ hi) : clip lo hi v = v := by
  unfold clip
  rw [if_neg (not_lt.2 h1), if_neg (not_lt.2 h2)]

theorem clip_mem (lo hi v : ℚ) (h : lo ≤ hi) : lo ≤ clip lo hi v ∧ clip lo hi v ≤ hi := by
  unfold clip
  split_ifs with h1 h2
  · exact ⟨le_rfl, h⟩
  · exact ⟨h, le_rfl⟩
  · exact ⟨not_lt.1 h1, not_lt.1 h2⟩

/-- A value taken from `[a, b]` and clipped into a range that reaches up to `b` and starts
at or below `b` stays in `[a, b]`, provided the range starts at or below the value or at or
above `a`. -/
theorem clip_between (lo hi v a b : ℚ) (hab : a ≤ v ∧ v ≤ b) (hlo : a ≤ lo ∨ lo ≤ v)
    (hlob : lo ≤ b) (hhi : b ≤ hi) : a ≤ clip lo hi v ∧ clip lo hi v ≤ b := by
  unfold clip
  split_ifs with h1 h2
  · rcases hlo with hlo | hlo
    · exact ⟨hlo, hlob⟩
    · exact absurd hlo (not_le.2 h1)
  · exact absurd (le_trans hab.2 hhi) (not_le.2 h2)
  · exact hab

theorem setVal_min (r : RooRealVar) (v : ℚ) : (r.setVal v).min = r.min := rfl

theorem setVal_max (r : RooRealVar) (v : ℚ) : (r.setVal v).max = r.max := rfl

theorem setVal_val (r : RooRealVar) (v : ℚ) : (r.setVal v).val = clip r.min r.max v := rfl

theorem setVal_val_mem (r : RooRealVar) (v : ℚ) :
    r.min ≤ (r.setVal v).val ∧ (r.setVal v).val ≤ r.max :=
  clip_mem r.min r.max v r.wf

theorem setVal_val_of_mem (r : RooRealVar) (v : ℚ) (h1 : r.min ≤ v) (h2 : v ≤ r.max) :
    (r.setVal v).val = v :=
  clip_of_mem r.min r.max v h1 h2

theorem setVal_getMax (r : RooRealVar) : (r.setVal r.max).val = r.max :=
  clip_of_mem r.min r.max r.max r.wf le_rfl

/-- Doubling a non-negative maximum right after the value was set to it: the range grows and
the value stays. -/
theorem setMax_double (r : RooRealVar) (h0 : 0 ≤ r.max) (hv : r.val = r.max) :
    (r.setMax (r.max * 2)).min = r.min ∧ (r.setMax (r.max * 2)).max = r.max * 2 ∧
      (r.setMax (r.max * 2)).val = r.max := by
  have hwf := r.wf
  have hno : ¬ (r.max * 2 < r.min) := by
    rw [not_lt]; linarith
  unfold RooRealVar.setMax
  rw [dif_neg hno]
  refine ⟨rfl, rfl, ?_⟩
  show clip r.min (r.max * 2) r.val = r.max
  rw [hv]
  exact clip_of_mem _ _ _ hwf (by linarith)

/-- Setting a maximum never moves the minimum, and never leaves the maximum negative when
the proposed one is not. -/
theorem setMax_min (r : RooRealVar) (v : ℚ) : (r.setMax v).min = r.min := by
  unfold RooRealVar.setMax
  split_ifs <;> rfl

theorem eval_nonadaptive_some (h : Hybrid) (C : HybridCalculatorOriginal σ ρ) (f : Nat)
    (w : World σ) (v t : ℚ) (s : σ) (res : ρ)
    (hg : C.GetHypoTest w.hc (w.r.setVal v).val = (s, some res)) :
    h.eval C f w v false t
      = .ret (⟨w.r.setVal v, s, w.calls ++ [(w.r.setVal v).val]⟩, h.estimate C res) := by
  simp [Hybrid.eval, hg]

theorem eval_none (h : Hybrid) (C : HybridCalculatorOriginal σ ρ) (f : Nat)
    (w : World σ) (v t : ℚ) (a : Bool) (s : σ)
    (hg : C.GetHypoTest w.hc (w.r.setVal v).val = (s, none)) :
    h.eval C f w v a t = .ret (⟨w.r.setVal v, s, w.calls ++ [(w.r.setVal v).val]⟩, (-1, -1)) := by
  simp [Hybrid.eval, hg]

/-- A non-adaptive `eval` always returns after exactly one call, whatever the engine does. -/
theorem eval_nonadaptive_ret (h : Hybrid) (C : HybridCalculatorOriginal σ ρ) (f : Nat)
    (w : World σ) (v t : ℚ) :
    ∃ e, h.eval C f w v false t
      = .ret (⟨w.r.setVal v, (C.GetHypoTest w.hc (w.r.setVal v).val).1,
          w.calls ++ [(w.r.setVal v).val]⟩, e) := by
  rcases hg : C.GetHypoTest w.hc (w.r.setVal v).val with ⟨s, _ | res⟩
  · exact ⟨_, eval_none h C f w v t false s hg⟩
  · exact ⟨_, eval_nonadaptive_some h C f w v t s res hg⟩

end Basics

/-! ## Termination of the bracket expansion -/

section ExpansionBound

variable {σ ρ : Type}

/-- The bracket expansion entered at its `i`-th doubling (`getMax() = M * 2^i`, `i < 6`) with
at least `6 - i` passes of fuel: it returns, having evaluated at `M * 2^i, ..., M * 2^j` for
some `j < 6`, and a return of `false` comes after the evaluation at `M * 2^5`. -/
theorem expandLoop_from (h : Hybrid) (C : HybridCalculatorOriginal σ ρ) (cl M : ℚ) (f : Nat)
    (hM : 0 < M) :
    ∀ (d i n : Nat) (w : World σ), i + d = 6 → 0 < d → d ≤ n → w.r.max = M * 2 ^ i →
      ∃ w1 ok j, i ≤ j ∧ j < 6 ∧ h.expandLoop C cl M f n w = .ret (w1, ok) ∧
        w1.calls = w.calls ++ (List.range' i (j + 1 - i)).map (fun e => M * 2 ^ e) ∧
        w1.r.min = w.r.min ∧
        (ok = true → w1.r.max = M * 2 ^ j ∧
          ∃ wp e, h.eval C f wp (M * 2 ^ j) false (-1) = .ret (w1, e) ∧
            (e.1 = 0 ∨ e.1 + 3 * |e.2| < cl)) ∧
        (ok = false → j = 5 ∧ w1.r.val = M * 2 ^ 5) := by
  intro d
  induction d with
  | zero => intro i n w _ hd; omega
  | succ d ih =>
    intro i n w hid _ hn hmax
    obtain ⟨n', rfl⟩ : ∃ n', n = n' + 1 := ⟨n - 1, by omega⟩
    obtain ⟨e, he⟩ := eval_nonadaptive_ret h C f w w.r.max (-1)
    have hpos : (0 : ℚ) ≤ M * 2 ^ i := by positivity
    have hcall : (w.r.setVal w.r.max).val = M * 2 ^ i := by rw [setVal_getMax, hmax]
    obtain ⟨hm1, hm2, hm3⟩ := setMax_double (w.r.setVal w.r.max)
      (by rw [setVal_max, hmax]; exact hpos) (by rw [setVal_getMax, setVal_max])
    have hm1' : ((w.r.setVal w.r.max).setMax ((w.r.setVal w.r.max).max * 2)).min = w.r.min := by
      rw [hm1, setVal_min]
    have hm2' : ((w.r.setVal w.r.max).setMax ((w.r.setVal w.r.max).max * 2)).max
        = M * 2 ^ (i + 1) := by
      rw [hm2, setVal_max, hmax, pow_succ, mul_assoc]
    have hm3' : ((w.r.setVal w.r.max).setMax ((w.r.setVal w.r.max).max * 2)).val
        = M * 2 ^ i := by
      rw [hm3, setVal_max, hmax]
    rw [Hybrid.expandLoop, he]
    simp only
    have hratio : M * 2 ^ i / M = 2 ^ i := by
      field_simp
    by_cases hbrk : e.1 = 0 ∨ e.1 + 3 * |e.2| < cl
    · refine ⟨⟨w.r.setVal w.r.max, (C.GetHypoTest w.hc (w.r.setVal w.r.max).val).1,
          w.calls ++ [(w.r.setVal w.r.max).val]⟩, true, i, le_rfl, by omega,
        (by rw [if_pos hbrk]), ?_, rfl, fun _ => ?_, fun hf => (by cases hf)⟩
      · have : i + 1 - i = 1 := by omega
        simp [this, hcall]
      · exact ⟨hmax, w, e, (by rw [← hmax]; exact he), hbrk⟩
    · rw [if_neg hbrk]
      simp only [hm3', hratio]
      by_cases hcut : (2 : ℚ) ^ i ≥ 20
      · have hi : i = 5 := by
          have hi6 : i < 6 := by omega
          interval_cases i <;> first | rfl | (norm_num at hcut)
        refine ⟨⟨(w.r.setVal w.r.max).setMax ((w.r.setVal w.r.max).max * 2),
            (C.GetHypoTest w.hc (w.r.setVal w.r.max).val).1,
            w.calls ++ [(w.r.setVal w.r.max).val]⟩, false, i, le_rfl, by omega,
          (by rw [if_pos hcut]), ?_, hm1',
          fun hf => (by cases hf), fun _ => ⟨hi, (by rw [← hi]; exact hm3')⟩⟩
        have : i + 1 - i = 1 := by omega
        simp [this, hcall]
      · rw [if_neg hcut]
        have hi : i < 5 := by
          by_contra hge
          have hi5 : i = 5 := by omega
          rw [hi5] at hcut
          norm_num at hcut
        obtain ⟨w1, ok, j, hij, hj, hrun, hcalls, hmin, hok, hno⟩ :=
          ih (i + 1) n' ⟨(w.r.setVal w.r.max).setMax ((w.r.setVal w.r.max).max * 2),
            (C.GetHypoTest w.hc (w.r.setVal w.r.max).val).1,
            w.calls ++ [(w.r.setVal w.r.max).val]⟩ (by omega) (by omega) (by omega) hm2'
        refine ⟨w1, ok, j, by omega, hj, hrun, ?_, hmin.trans hm1', hok, hno⟩
        rw [hcalls]
        have hlen : j + 1 - i = (j + 1 - (i + 1)) + 1 := by omega
        rw [hlen, List.range'_succ]
        simp [hcall]

end ExpansionBound

/-! ## Bracket-expansion cutoff -/

/-- C4: for an engine whose every result has statistic value `1` (whatever its error), any
`cl ≤ 1` and initial `rMax = M > 0`, `run` returns `false` through the cutoff of line 70. The
engine has then been called at exactly `M, 2M, 4M, 8M, 16M, 32M`: the abort comes at the first
trial value that is at least `20 M` (namely `32 M`), and the five trial values before it are
all below `20 M`. -/
theorem constant_one_hits_cutoff {σ ρ : Type} (h : Hybrid) (C : HybridCalculatorOriginal σ ρ)
    (cl M : ℚ) (w0 : World σ) (limit : ℚ) (hint : Option ℚ) (n : Nat)
    (hone : ∀ s v, ∃ s1 res, C.GetHypoTest s v = (s1, some res) ∧ (h.estimate C res).1 = 1)
    (hcl : cl ≤ 1) (hM0 : (applyHint w0.r hint).max = M) (hM : 0 < M) :
    ∃ out, h.run C cl (n + 6) w0 limit hint = .ret out ∧ out.ok = false ∧
      out.w.calls = w0.calls ++ [M, 2 * M, 4 * M, 8 * M, 16 * M, 32 * M] ∧
      out.w.r.val = 32 * M ∧ out.w.r.val / M ≥ 20 ∧
      ∀ v ∈ [M, 2 * M, 4 * M, 8 * M, 16 * M], v / M < 20 := by
  obtain ⟨w1, ok, j, _, _, hrun, hcalls, _, hok, hno⟩ :=
    expandLoop_from h C cl M (n + 6) hM 6 0 (n + 6) { w0 with r := applyHint w0.r hint }
      (by omega) (by omega) (by omega) (by simpa using hM0)
  have hfalse : ok = false := by
    cases ok with
    | false => rfl
    | true =>
      exfalso
      obtain ⟨_, wp, e, hev, hbrk⟩ := hok rfl
      obtain ⟨s1, res, hg, h1⟩ := hone wp.hc (wp.r.setVal (M * 2 ^ j)).val
      rw [eval_nonadaptive_some h C (n + 6) wp _ _ s1 res hg] at hev
      simp only [Res.ret.injEq, Prod.mk.injEq] at hev
      rw [← hev.2, h1] at hbrk
      rcases hbrk with hb | hb
      · norm_num at hb
      · have := abs_nonneg (h.estimate C res).2
        linarith
  subst hfalse
  obtain ⟨hj5, hval⟩ := hno rfl
  subst hj5
  have hv32 : w1.r.val = 32 * M := by rw [hval]; ring
  refine ⟨⟨false, limit, w1, ⟨0, M, (1, 0), (0, 0)⟩, false⟩, ?_, rfl, ?_, hv32, ?_, ?_⟩
  · simp only [Hybrid.run, hM0, hrun]
  · show w1.calls = _
    rw [hcalls]
    simp only [List.range', List.map, List.append_cancel_left_eq, List.cons.injEq, and_true]
    norm_num
    refine ⟨?_, ?_, ?_, ?_, ?_⟩ <;> ring
  · show w1.r.val / M ≥ 20
    rw [hv32, ge_iff_le, le_div_iff₀ hM]; linarith
  · intro v hv
    simp only [List.mem_cons, List.mem_singleton, List.not_mem_nil, or_false] at hv
    rcases hv with rfl | rfl | rfl | rfl | rfl <;> rw [div_lt_iff₀ hM] <;> linarith

/-- Witness for C4: default options, `cl = 0.95`, the zero-error engine with constant
statistic `1`, `r` ranging over `[0, 1]`. -/
theorem constant_one_hits_cutoff_witness :
    ∃ out, Hybrid.defaults.run (exactOracle (fun _ => 1)) (19 / 20) (0 + 6) (startWorld 1) 0 none
        = .ret out ∧ out.ok = false ∧
      out.w.calls = (startWorld 1).calls ++ [1, 2 * 1, 4 * 1, 8 * 1, 16 * 1, 32 * 1] ∧
      out.w.r.val = 32 * 1 ∧ out.w.r.val / 1 ≥ 20 ∧
      ∀ v ∈ [(1 : ℚ), 2 * 1, 4 * 1, 8 * 1, 16 * 1], v / 1 < 20 :=
  constant_one_hits_cutoff Hybrid.defaults (exactOracle (fun _ => 1)) (19 / 20) 1 (startWorld 1)
    0 none 0 (fun s v => ⟨s, v, rfl, rfl⟩) (by norm_num) (by decide!) (by norm_num)
/-! ## The bound on the bracket expansion -/

/-- C17: for every engine (failing or not) and every initial `rMax = M > 0`, the
bracket-expansion loop returns within six passes: it makes `j + 1 ≤ 6` evaluations, the
`i`-th of them at exactly `M * 2^(i-1)`; when it ends by `break` the `rMax` handed to bisection
is `M * 2^j`, one of `M, 2M, 4M, 8M, 16M, 32M`, and the evaluation there passed the test of
line 66; and it returns `false` only after the sixth evaluation, the one at `32 M`. -/
theorem expansion_at_most_six {σ ρ : Type} (h : Hybrid) (C : HybridCalculatorOriginal σ ρ)
    (cl M : ℚ) (f n : Nat) (w : World σ) (hM : 0 < M) (hmax : w.r.max = M) (hn : 6 ≤ n) :
    ∃ w1 ok j, j < 6 ∧ h.expandLoop C cl M f n w = .ret (w1, ok) ∧
      w1.calls = w.calls ++ (List.range (j + 1)).map (fun i => M * 2 ^ i) ∧
      (ok = true → w1.r.max = M * 2 ^ j ∧
        ∃ wp e, h.eval C f wp (M * 2 ^ j) false (-1) = .ret (w1, e) ∧
          (e.1 = 0 ∨ e.1 + 3 * |e.2| < cl)) ∧
      (ok = false → j = 5 ∧ w1.r.val = 32 * M) := by
  obtain ⟨w1, ok, j, _, hj, hrun, hcalls, _, hok, hno⟩ :=
    expandLoop_from h C cl M f hM 6 0 n w (by omega) (by omega) hn (by simpa using hmax)
  refine ⟨w1, ok, j, hj, hrun, ?_, hok, fun hf => ⟨(hno hf).1, ?_⟩⟩
  · rw [hcalls, List.range_eq_range']
    simp
  · rw [(hno hf).2]
    norm_num
    ring

/-- Witness for C17: an engine that fails on its second call, statistic `max(0, 1 - r/100)`,
`cl = 0.01`, `M = 1`. -/
theorem expansion_at_most_six_witness :
    ((0 : ℚ) < 1 ∧ (⟨rooVar 0 1 0, 0, []⟩ : World Nat).r.max = 1 ∧ 6 ≤ 6) ∧
    ∃ w1 ok j, j < 6 ∧
      Hybrid.defaults.expandLoop (failingOracle 2 (linearStat 100)) (1 / 100) 1 0 6
        ⟨rooVar 0 1 0, 0, []⟩ = .ret (w1, ok) ∧
      w1.calls = ([] : List ℚ) ++ (List.range (j + 1)).map (fun i => 1 * 2 ^ i) ∧
      (ok = true → w1.r.max = 1 * 2 ^ j ∧
        ∃ wp e, Hybrid.defaults.eval (failingOracle 2 (linearStat 100)) 0 wp (1 * 2 ^ j) false
            (-1) = .ret (w1, e) ∧
          (e.1 = 0 ∨ e.1 + 3 * |e.2| < 1 / 100)) ∧
      (ok = false → j = 5 ∧ w1.r.val = 32 * 1) :=
  ⟨⟨by decide!, by decide!, le_refl 6⟩,
    expansion_at_most_six Hybrid.defaults (failingOracle 2 (linearStat 100)) (1 / 100) 1 0 6
      ⟨rooVar 0 1 0, 0, []⟩ (by decide!) (by decide!) (le_refl 6)⟩

/-! ## The adaptive loop of `eval` -/

section Adaptive

variable {σ ρ : Type}

/-- The adaptive loop returns exactly when some number `n` of further batches, less than the
fuel, has been merged in, the loop condition held before each of them and fails after the
last. -/
theorem adaptiveLoop_ret_iff (h : Hybrid) (C : HybridCalculatorOriginal σ ρ) (t : ℚ) :
    ∀ (fuel : Nat) (w : World σ) (res : ρ) (w' : World σ) (res' : ρ),
      h.adaptiveLoop C t fuel w res = .ret (w', res') ↔
        ∃ n s, n < fuel ∧ moreBatches C w.r.val n w.hc res = some (s, res') ∧
          (∀ m s1 res1, m < n → moreBatches C w.r.val m w.hc res = some (s1, res1) →
            h.wantsMore t (h.estimate C res1)) ∧
          ¬ h.wantsMore t (h.estimate C res') ∧
          w' = ⟨w.r, s, w.calls ++ List.replicate n w.r.val⟩ := by
  intro fuel
  induction fuel with
  | zero =>
    intro w res w' res'
    simp [Hybrid.adaptiveLoop]
  | succ fuel ih =>
    intro w res w' res'
    simp only [Hybrid.adaptiveLoop]
    by_cases hc : h.wantsMore t (h.estimate C res)
    · simp only [hc, if_true]
      rcases hg : C.GetHypoTest w.hc w.r.val with ⟨s1, _ | more⟩
      · simp only
        constructor
        · intro hx; cases hx
        · rintro ⟨n, s, _, hmb, _, hnw, _⟩
          cases n with
          | zero =>
            simp only [moreBatches, Option.some.injEq, Prod.mk.injEq] at hmb
            rw [← hmb.2] at hnw
            exact absurd hc hnw
          | succ n => simp [moreBatches, hg] at hmb
      · simp only
        rw [ih]
        constructor
        · rintro ⟨n, s, hn, hmb, hall, hnw, hw⟩
          refine ⟨n + 1, s, by omega, by simpa [moreBatches, hg] using hmb, ?_, hnw, ?_⟩
          · intro m s2 res2 hm hm2
            cases m with
            | zero =>
              simp only [moreBatches, Option.some.injEq, Prod.mk.injEq] at hm2
              rw [← hm2.2]; exact hc
            | succ m =>
              simp only [moreBatches, hg] at hm2
              exact hall m s2 res2 (by omega) hm2
          · rw [hw]
            simp [List.replicate_succ]
        · rintro ⟨n, s, hn, hmb, hall, hnw, hw⟩
          cases n with
          | zero =>
            simp only [moreBatches, Option.some.injEq, Prod.mk.injEq] at hmb
            rw [← hmb.2] at hnw
            exact absurd hc hnw
          | succ n =>
            refine ⟨n, s, by omega, by simpa [moreBatches, hg] using hmb, ?_, hnw, ?_⟩
            · intro m s2 res2 hm hm2
              exact hall (m + 1) s2 res2 (by omega) (by simpa [moreBatches, hg] using hm2)
            · rw [hw]
              simp [List.replicate_succ]
    · simp only [hc, if_false]
      constructor
      · intro hx
        simp only [Res.ret.injEq, Prod.mk.injEq] at hx
        obtain ⟨rfl, rfl⟩ := hx
        exact ⟨0, w.hc, by omega, rfl, by intro m _ _ hm; omega, hc, by simp⟩
      · rintro ⟨n, s, hn, hmb, hall, hnw, hw⟩
        cases n with
        | zero =>
          simp only [moreBatches, Option.some.injEq, Prod.mk.injEq] at hmb
          obtain ⟨rfl, rfl⟩ := hmb
          rw [hw]; simp
        | succ n => exact absurd (hall 0 w.hc res (by omega) rfl) hc

end Adaptive

/-- C5, as the code has it: when the first batch at `v` (clipped into the range of `r`)
succeeds, the adaptive `eval` returns
`(w', e)` exactly when, for some `n` below the fuel, `n` further batches were requested at `v`
and merged, the condition `|value - clsTarget| < 3 * error` and `error ≥ clsAccuracy_` held
for the running estimate before each of them and fails for the estimate after the last, which
is the returned `e`. So the number of further batches is the least `n` at which the condition
is false for the `n`-th merged estimate. -/
theorem adaptive_eval_batches {σ ρ : Type} (h : Hybrid) (C : HybridCalculatorOriginal σ ρ)
    (t v : ℚ) (fuel : Nat) (w : World σ) (s0 : σ) (res0 : ρ)
    (hfirst : C.GetHypoTest w.hc (w.r.setVal v).val = (s0, some res0)) (w' : World σ)
    (e : CLs_t) :
    h.eval C fuel w v true t = .ret (w', e) ↔
      ∃ n s res, n < fuel ∧ moreBatches C (w.r.setVal v).val n s0 res0 = some (s, res) ∧
        (∀ m s1 res1, m < n → moreBatches C (w.r.setVal v).val m s0 res0 = some (s1, res1) →
          |(h.estimate C res1).1 - t| < 3 * (h.estimate C res1).2 ∧
            (h.estimate C res1).2 ≥ h.clsAccuracy_) ∧
        ¬ (|(h.estimate C res).1 - t| < 3 * (h.estimate C res).2 ∧
            (h.estimate C res).2 ≥ h.clsAccuracy_) ∧
        w' = ⟨w.r.setVal v, s, w.calls ++ List.replicate (n + 1) (w.r.setVal v).val⟩ ∧
        e = h.estimate C res := by
  simp only [Hybrid.eval, hfirst, if_true]
  constructor
  · intro hx
    cases hl : h.adaptiveLoop C t fuel
        ⟨w.r.setVal v, s0, w.calls ++ [(w.r.setVal v).val]⟩ res0 with
    | ret p =>
      obtain ⟨w2, res⟩ := p
      rw [hl] at hx
      simp only [Res.ret.injEq, Prod.mk.injEq] at hx
      obtain ⟨rfl, rfl⟩ := hx
      obtain ⟨n, s, hn, hmb, hall, hnw, hw⟩ := (adaptiveLoop_ret_iff h C t _ _ _ _ _).1 hl
      refine ⟨n, s, res, hn, hmb, hall, hnw, ?_, rfl⟩
      rw [hw]; simp [List.replicate_succ]
    | nullDeref => rw [hl] at hx; cases hx
    | outOfFuel => rw [hl] at hx; cases hx
  · rintro ⟨n, s, res, hn, hmb, hall, hnw, hw, he⟩
    have hl := (adaptiveLoop_ret_iff h C t fuel
      ⟨w.r.setVal v, s0, w.calls ++ [(w.r.setVal v).val]⟩ res0
      ⟨w.r.setVal v, s, w.calls ++ [(w.r.setVal v).val] ++ List.replicate n (w.r.setVal v).val⟩
      res).2 ⟨n, s, hn, hmb, hall, hnw, rfl⟩
    rw [hl, hw, he]
    simp [List.replicate_succ]

/-- Witness for C5: the engine with fixed statistic `0.05` whose error starts at `0.04` and
halves with every batch, target `0.05`, tolerance `0.005`: the errors are `0.04, 0.02, 0.01,
0.005, 0.0025`, and `eval` returns after four further batches (five calls). -/
theorem adaptive_eval_batches_witness :
    (shrinkingOracle (1 / 20) (1 / 25) (1 / 2)).GetHypoTest (startWorld 1).hc
        ((startWorld 1).r.setVal 1).val = ((), some 1) ∧
    Hybrid.defaults.eval (shrinkingOracle (1 / 20) (1 / 25) (1 / 2)) 6 (startWorld 1) 1 true
        (1 / 20) = .ret (⟨rooVar 0 1 1, (), [1, 1, 1, 1, 1]⟩, (1 / 20, 1 / 400)) ∧
      ∃ n s res, n < 6 ∧
        moreBatches (shrinkingOracle (1 / 20) (1 / 25) (1 / 2)) ((startWorld 1).r.setVal 1).val
          n () 1 = some (s, res) ∧
        (∀ m s1 res1, m < n →
          moreBatches (shrinkingOracle (1 / 20) (1 / 25) (1 / 2)) ((startWorld 1).r.setVal 1).val
            m () 1 = some (s1, res1) →
          |(Hybrid.defaults.estimate (shrinkingOracle (1 / 20) (1 / 25) (1 / 2)) res1).1 - 1 / 20|
              < 3 * (Hybrid.defaults.estimate (shrinkingOracle (1 / 20) (1 / 25) (1 / 2)) res1).2 ∧
            (Hybrid.defaults.estimate (shrinkingOracle (1 / 20) (1 / 25) (1 / 2)) res1).2
              ≥ Hybrid.defaults.clsAccuracy_) ∧
        ¬ (|(Hybrid.defaults.estimate (shrinkingOracle (1 / 20) (1 / 25) (1 / 2)) res).1 - 1 / 20|
              < 3 * (Hybrid.defaults.estimate (shrinkingOracle (1 / 20) (1 / 25) (1 / 2)) res).2 ∧
            (Hybrid.defaults.estimate (shrinkingOracle (1 / 20) (1 / 25) (1 / 2)) res).2
              ≥ Hybrid.defaults.clsAccuracy_) ∧
        (⟨rooVar 0 1 1, (), [1, 1, 1, 1, 1]⟩ : World Unit)
          = ⟨(startWorld 1).r.setVal 1, s,
              (startWorld 1).calls ++ List.replicate (n + 1) ((startWorld 1).r.setVal 1).val⟩ ∧
        ((1 / 20, 1 / 400) : CLs_t)
          = Hybrid.defaults.estimate (shrinkingOracle (1 / 20) (1 / 25) (1 / 2)) res :=
  ⟨rfl, by decide!,
    (adaptive_eval_batches Hybrid.defaults (shrinkingOracle (1 / 20) (1 / 25) (1 / 2)) (1 / 20) 1 6
      (startWorld 1) () 1 rfl _ _).1 (by decide!)⟩

/-- C5 as stated fails on the code at an error equal to the tolerance: with fixed statistic
`0.05 = clsTarget` and errors `0.02, 0.01, 0.005, 0.0025` the claimed condition
(`error > clsAccuracy_`) is already false after two further batches (error `0.005`), yet the
code requests a third one and returns the estimate with error `0.0025`. -/
theorem adaptive_requests_at_equal_error :
    Hybrid.defaults.eval (shrinkingOracle (1 / 20) (1 / 50) (1 / 2)) 4 (startWorld 1) 1 true
        (1 / 20) = .ret (⟨rooVar 0 1 1, (), [1, 1, 1, 1]⟩, (1 / 20, 1 / 400))
    ∧ moreBatches (shrinkingOracle (1 / 20) (1 / 50) (1 / 2)) 1 2 () 1 = some ((), 3)
    ∧ Hybrid.defaults.estimate (shrinkingOracle (1 / 20) (1 / 50) (1 / 2)) 3 = (1 / 20, 1 / 200)
    ∧ ¬ (|(1 / 20 : ℚ) - 1 / 20| < 3 * (1 / 200) ∧ (1 / 200 : ℚ) > Hybrid.defaults.clsAccuracy_) := by
  refine ⟨by decide!, by decide!, by decide!, by decide!⟩

/-! ## Structure of a run -/

section Structure

variable {σ ρ : Type}

/-- Whatever `eval` returns, it has set `r` to the requested value (clipped into the range)
and has called the engine there one or more times, and nowhere else. -/
theorem eval_ret_world (h : Hybrid) (C : HybridCalculatorOriginal σ ρ) (f : Nat) (w : World σ)
    (v : ℚ) (a : Bool) (t : ℚ) (w' : World σ) (e : CLs_t)
    (hx : h.eval C f w v a t = .ret (w', e)) :
    w'.r = w.r.setVal v ∧
      ∃ n, w'.calls = w.calls ++ List.replicate (n + 1) (w.r.setVal v).val := by
  rcases hg : C.GetHypoTest w.hc (w.r.setVal v).val with ⟨s, _ | res⟩
  · rw [eval_none h C f w v t a s hg] at hx
    simp only [Res.ret.injEq, Prod.mk.injEq] at hx
    rw [← hx.1]
    exact ⟨rfl, 0, rfl⟩
  · cases a
    · rw [eval_nonadaptive_some h C f w v t s res hg] at hx
      simp only [Res.ret.injEq, Prod.mk.injEq] at hx
      rw [← hx.1]
      exact ⟨rfl, 0, rfl⟩
    · simp only [Hybrid.eval, hg, if_true] at hx
      cases hl : h.adaptiveLoop C t f
          ⟨w.r.setVal v, s, w.calls ++ [(w.r.setVal v).val]⟩ res with
      | ret p =>
        obtain ⟨w2, res2⟩ := p
        rw [hl] at hx
        simp only [Res.ret.injEq, Prod.mk.injEq] at hx
        obtain ⟨n, s2, _, _, _, _, hw⟩ := (adaptiveLoop_ret_iff h C t _ _ _ _ _).1 hl
        rw [← hx.1, hw]
        exact ⟨rfl, n, by simp [List.replicate_succ]⟩
      | nullDeref => rw [hl] at hx; cases hx
      | outOfFuel => rw [hl] at hx; cases hx

theorem getLast?_append_replicate_succ (l : List ℚ) (n : Nat) (v : ℚ) :
    (l ++ List.replicate (n + 1) v).getLast? = some v := by
  rw [List.replicate_succ', ← List.append_assoc, List.getLast?_append]
  simp

/-- The three ways in which a pass through the bisection body can return. -/
theorem bisectStep_ret (h : Hybrid) (C : HybridCalculatorOriginal σ ρ) (t : ℚ) (f : Nat)
    (w : World σ) (b : Bracket) (x : Step σ) (hx : h.bisectStep C t f w b = .ret x) :
    ∃ w1 c, h.eval C f w (1 / 2 * (b.rMin + b.rMax)) true t = .ret (w1, c) ∧
      ((x = .failed w1 b ∧ c.2 = -1) ∨
       (x = .lucky w1 b c ∧ c.2 ≠ -1 ∧ |c.1 - t| ≤ h.clsAccuracy_) ∨
       (x = .next w1 { b with rMax := w1.r.val, clsMax := c } ∧ c.2 ≠ -1 ∧
          ¬ |c.1 - t| ≤ h.clsAccuracy_ ∧
          decide (c.1 > t) = decide (b.clsMax.1 > t)) ∨
       (x = .next w1 { b with rMin := w1.r.val, clsMin := c } ∧ c.2 ≠ -1 ∧
          ¬ |c.1 - t| ≤ h.clsAccuracy_ ∧
          ¬ decide (c.1 > t) = decide (b.clsMax.1 > t))) := by
  simp only [Hybrid.bisectStep] at hx
  cases he : h.eval C f w (1 / 2 * (b.rMin + b.rMax)) true t with
  | ret p =>
    obtain ⟨w1, c⟩ := p
    rw [he] at hx
    simp only at hx
    refine ⟨w1, c, rfl, ?_⟩
    split_ifs at hx with h1 h2 h3
    · left; exact ⟨(Res.ret.inj hx).symm, h1⟩
    · right; left; exact ⟨(Res.ret.inj hx).symm, h1, h2⟩
    · right; right; left; exact ⟨(Res.ret.inj hx).symm, h1, h2, h3⟩
    · right; right; right; exact ⟨(Res.ret.inj hx).symm, h1, h2, h3⟩
  | nullDeref => rw [he] at hx; cases hx
  | outOfFuel => rw [he] at hx; cases hx

/-- What the bisection loop returns is what its last pass returned, and a returned
`Step.next` fails the loop condition of line 93. -/
theorem bisectLoop_last (h : Hybrid) (C : HybridCalculatorOriginal σ ρ) (t : ℚ) (f : Nat) :
    ∀ (n : Nat) (w : World σ) (b : Bracket) (x : Step σ),
      h.bisectLoop C t f n w b = .ret x →
      ∃ k w1 b1, h.bisectIter C t f k w b = some (w1, b1) ∧ h.bisectStep C t f w1 b1 = .ret x ∧
        ∀ w2 b2, x = .next w2 b2 → ¬ h.keepBisecting w2 b2 := by
  intro n
  induction n with
  | zero => intro w b x hx; simp [Hybrid.bisectLoop] at hx
  | succ n ih =>
    intro w b x hx
    simp only [Hybrid.bisectLoop] at hx
    cases hs : h.bisectStep C t f w b with
    | ret s =>
      rw [hs] at hx
      cases s with
      | next w1 b1 =>
        simp only at hx
        by_cases hk : h.keepBisecting w1 b1
        · simp only [hk, if_true] at hx
          obtain ⟨k, w2, b2, hit, hst, hnk⟩ := ih w1 b1 x hx
          exact ⟨k + 1, w2, b2, by simp [Hybrid.bisectIter, hs, hk, hit], hst, hnk⟩
        · simp only [hk, if_false] at hx
          have hxe := Res.ret.inj hx
          subst hxe
          refine ⟨0, w, b, rfl, hs, ?_⟩
          intro w2 b2 he
          simp only [Step.next.injEq] at he
          rw [← he.1, ← he.2]; exact hk
      | failed w1 b1 =>
        have hxe := Res.ret.inj hx
        subst hxe
        exact ⟨0, w, b, rfl, hs, by intro w2 b2 he; cases he⟩
      | lucky w1 b1 c =>
        have hxe := Res.ret.inj hx
        subst hxe
        exact ⟨0, w, b, rfl, hs, by intro w2 b2 he; cases he⟩
    | nullDeref => rw [hs] at hx; cases hx
    | outOfFuel => rw [hs] at hx; cases hx

/-- The five ways in which `run` can return. -/
theorem run_ret_cases (h : Hybrid) (C : HybridCalculatorOriginal σ ρ) (cl : ℚ) (fuel : Nat)
    (w0 : World σ) (limit : ℚ) (hint : Option ℚ) (out : RunOut σ)
    (hrun : h.run C cl fuel w0 limit hint = .ret out) :
    (∃ w1, h.expandLoop C cl (applyHint w0.r hint).max fuel fuel
          { w0 with r := applyHint w0.r hint } = .ret (w1, false) ∧
        out = ⟨false, limit, w1, ⟨0, (applyHint w0.r hint).max, (1, 0), (0, 0)⟩, false⟩) ∨
    (∃ w1, h.expandLoop C cl (applyHint w0.r hint).max fuel fuel
          { w0 with r := applyHint w0.r hint } = .ret (w1, true) ∧
      ((∃ w2 b, h.bisectLoop C (1 - cl) fuel fuel w1 ⟨0, w1.r.max, (1, 0), (0, 0)⟩
            = .ret (.failed w2 b) ∧ out = ⟨false, limit, w2, b, false⟩) ∨
       (∃ w2 b c, h.bisectLoop C (1 - cl) fuel fuel w1 ⟨0, w1.r.max, (1, 0), (0, 0)⟩
            = .ret (.lucky w2 b c) ∧ h.rInterval_ = false ∧
            out = ⟨true, w2.r.val, w2, b, true⟩) ∨
       (∃ w2 b c w3 b3, h.bisectLoop C (1 - cl) fuel fuel w1 ⟨0, w1.r.max, (1, 0), (0, 0)⟩
            = .ret (.lucky w2 b c) ∧ h.rInterval_ = true ∧
            h.refine C (1 - cl) fuel w2.r.val w2 b = .ret (w3, b3) ∧
            out = ⟨true, w2.r.val, w3, b3, true⟩) ∨
       (∃ w2 b, h.bisectLoop C (1 - cl) fuel fuel w1 ⟨0, w1.r.max, (1, 0), (0, 0)⟩
            = .ret (.next w2 b) ∧ out = ⟨true, 1 / 2 * (b.rMax + b.rMin), w2, b, false⟩))) := by
  simp only [Hybrid.run] at hrun
  cases he : h.expandLoop C cl (applyHint w0.r hint).max fuel fuel
      { w0 with r := applyHint w0.r hint } with
  | ret p =>
    obtain ⟨w1, ok⟩ := p
    rw [he] at hrun
    cases ok with
    | false =>
      left
      exact ⟨w1, rfl, (Res.ret.inj hrun).symm⟩
    | true =>
      right
      refine ⟨w1, rfl, ?_⟩
      simp only at hrun
      cases hb : h.bisectLoop C (1 - cl) fuel fuel w1 ⟨0, w1.r.max, (1, 0), (0, 0)⟩ with
      | ret s =>
        rw [hb] at hrun
        cases s with
        | failed w2 b => left; exact ⟨w2, b, rfl, (Res.ret.inj hrun).symm⟩
        | next w2 b => right; right; right; exact ⟨w2, b, rfl, (Res.ret.inj hrun).symm⟩
        | lucky w2 b c =>
          simp only at hrun
          by_cases hi : h.rInterval_ = true
          · simp only [hi, if_true] at hrun
            cases hr : h.refine C (1 - cl) fuel w2.r.val w2 b with
            | ret q =>
              obtain ⟨w3, b3⟩ := q
              rw [hr] at hrun
              right; right; left
              exact ⟨w2, b, c, w3, b3, rfl, hi, hr, (Res.ret.inj hrun).symm⟩
            | nullDeref => rw [hr] at hrun; cases hrun
            | outOfFuel => rw [hr] at hrun; cases hrun
          · simp only [hi] at hrun
            right; left
            exact ⟨w2, b, c, rfl, by simpa using hi, (Res.ret.inj hrun).symm⟩
      | nullDeref => rw [hb] at hrun; cases hrun
      | outOfFuel => rw [hb] at hrun; cases hrun
  | nullDeref => rw [he] at hrun; cases hrun
  | outOfFuel => rw [he] at hrun; cases hrun

end Structure

/-! ## The bracket during bisection -/

section BracketInvariant

variable {σ ρ : Type}

theorem setMax_max_of_le (r : RooRealVar) (v : ℚ) (hv : r.min ≤ v) : (r.setMax v).max = v := by
  unfold RooRealVar.setMax
  rw [dif_neg (not_lt.2 hv)]

/-- `eval` leaves the range of `r` alone. -/
theorem eval_ret_max (h : Hybrid) (C : HybridCalculatorOriginal σ ρ) (f : Nat) (w : World σ)
    (v : ℚ) (a : Bool) (t : ℚ) (w' : World σ) (e : CLs_t)
    (hx : h.eval C f w v a t = .ret (w', e)) : w'.r.max = w.r.max := by
  rw [(eval_ret_world h C f w v a t w' e hx).1]; rfl

theorem eval_ret_min (h : Hybrid) (C : HybridCalculatorOriginal σ ρ) (f : Nat) (w : World σ)
    (v : ℚ) (a : Bool) (t : ℚ) (w' : World σ) (e : CLs_t)
    (hx : h.eval C f w v a t = .ret (w', e)) : w'.r.min = w.r.min := by
  rw [(eval_ret_world h C f w v a t w' e hx).1]; rfl

/-- The bracket expansion only doubles the maximum, so a non-negative maximum stays
non-negative. -/
theorem expandLoop_max_nonneg (h : Hybrid) (C : HybridCalculatorOriginal σ ρ) (cl rMax : ℚ)
    (f : Nat) :
    ∀ (n : Nat) (w w1 : World σ) (ok : Bool), 0 ≤ w.r.max →
      h.expandLoop C cl rMax f n w = .ret (w1, ok) → 0 ≤ w1.r.max := by
  intro n
  induction n with
  | zero => intro w w1 ok _ hx; simp [Hybrid.expandLoop] at hx
  | succ n ih =>
    intro w w1 ok hw hx
    simp only [Hybrid.expandLoop] at hx
    cases he : h.eval C f w w.r.max false (-1) with
    | ret p =>
      obtain ⟨w2, c⟩ := p
      have hmax := eval_ret_max h C f w _ _ _ _ _ he
      have hdbl : (w2.r.setMax (w2.r.max * 2)).max = w2.r.max * 2 :=
        setMax_max_of_le _ _ (by have := w2.r.wf; rw [hmax] at this ⊢; linarith)
      rw [he] at hx
      simp only at hx
      split_ifs at hx with h1 h2
      · simp only [Res.ret.injEq, Prod.mk.injEq] at hx
        rw [← hx.1, hmax]; exact hw
      · simp only [Res.ret.injEq, Prod.mk.injEq] at hx
        rw [← hx.1]
        show 0 ≤ (w2.r.setMax (w2.r.max * 2)).max
        rw [hdbl, hmax]; linarith
      · refine ih _ w1 ok ?_ hx
        show 0 ≤ (w2.r.setMax (w2.r.max * 2)).max
        rw [hdbl, hmax]; linarith
    | nullDeref => rw [he] at hx; cases hx
    | outOfFuel => rw [he] at hx; cases hx

/-- The bracket expansion never moves the minimum of `r`. -/
theorem expandLoop_min (h : Hybrid) (C : HybridCalculatorOriginal σ ρ) (cl rMax : ℚ)
    (f : Nat) :
    ∀ (n : Nat) (w w1 : World σ) (ok : Bool),
      h.expandLoop C cl rMax f n w = .ret (w1, ok) → w1.r.min = w.r.min := by
  intro n
  induction n with
  | zero => intro w w1 ok hx; simp [Hybrid.expandLoop] at hx
  | succ n ih =>
    intro w w1 ok hx
    simp only [Hybrid.expandLoop] at hx
    cases he : h.eval C f w w.r.max false (-1) with
    | ret p =>
      obtain ⟨w2, c⟩ := p
      have hmin := eval_ret_min h C f w _ _ _ _ _ he
      rw [he] at hx
      simp only at hx
      split_ifs at hx with h1 h2
      · simp only [Res.ret.injEq, Prod.mk.injEq] at hx
        rw [← hx.1, hmin]
      · simp only [Res.ret.injEq, Prod.mk.injEq] at hx
        rw [← hx.1]
        show (w2.r.setMax (w2.r.max * 2)).min = w.r.min
        rw [setMax_min, hmin]
      · have := ih _ w1 ok hx
        rw [this]
        show (w2.r.setMax (w2.r.max * 2)).min = w.r.min
        rw [setMax_min, hmin]
    | nullDeref => rw [he] at hx; cases hx
    | outOfFuel => rw [he] at hx; cases hx

/-- A pass through the bisection body leaves `r` at the midpoint, clipped into its range. -/
theorem bisectStep_world (h : Hybrid) (C : HybridCalculatorOriginal σ ρ) (t : ℚ) (f : Nat)
    (w : World σ) (b : Bracket) (x : Step σ) (hx : h.bisectStep C t f w b = .ret x) :
    x.world.r = w.r.setVal (1 / 2 * (b.rMin + b.rMax)) := by
  obtain ⟨w1, c, hev, hcase⟩ := bisectStep_ret h C t f w b x hx
  have hr := (eval_ret_world h C f w _ true t _ _ hev).1
  rcases hcase with ⟨rfl, _⟩ | ⟨rfl, _⟩ | ⟨rfl, _⟩ | ⟨rfl, _⟩ <;> exact hr

/-- One pass through the bisection body keeps `rMin ≤ rMax` and does not widen the bracket:
a moved edge is moved to the evaluated point, which lies inside the bracket. -/
theorem bisectStep_bracket (h : Hybrid) (C : HybridCalculatorOriginal σ ρ) (t : ℚ) (f : Nat)
    (w : World σ) (b : Bracket) (x : Step σ) (hb : BracketOk w b)
    (hx : h.bisectStep C t f w b = .ret x) :
    x.bracket.rMin ≤ x.bracket.rMax ∧
      x.bracket.rMax - x.bracket.rMin ≤ b.rMax - b.rMin ∧ BracketOk x.world x.bracket := by
  obtain ⟨hb1, hb2, hb3⟩ := hb
  have hw := bisectStep_world h C t f w b x hx
  obtain ⟨w1, c, hev, hcase⟩ := bisectStep_ret h C t f w b x hx
  have hmem := setVal_val_mem w.r (1 / 2 * (b.rMin + b.rMax))
  have hin : b.rMin ≤ (w.r.setVal (1 / 2 * (b.rMin + b.rMax))).val ∧
      (w.r.setVal (1 / 2 * (b.rMin + b.rMax))).val ≤ b.rMax := by
    rw [setVal_val]
    refine clip_between _ _ _ _ _ ⟨by linarith, by linarith⟩ ?_ hb2 hb3
    rcases le_total w.r.min (1 / 2 * (b.rMin + b.rMax)) with hle | hle
    · exact Or.inr hle
    · exact Or.inl (by linarith)
  have hmn : (w.r.setVal (1 / 2 * (b.rMin + b.rMax))).min = w.r.min := rfl
  have hmx : (w.r.setVal (1 / 2 * (b.rMin + b.rMax))).max = w.r.max := rfl
  rcases hcase with ⟨rfl, _⟩ | ⟨rfl, _⟩ | ⟨rfl, _⟩ | ⟨rfl, _⟩ <;>
    simp only [Step.world] at hw <;>
    simp only [Step.bracket, Step.world, BracketOk, hw, hmn, hmx]
  · exact ⟨hb1, le_rfl, hb1, hb2, hb3⟩
  · exact ⟨hb1, le_rfl, hb1, hb2, hb3⟩
  · exact ⟨hin.1, by linarith [hin.1], hin.1, hmem.1, hmem.2⟩
  · exact ⟨hin.2, by linarith [hin.2], hin.2, hb2, hb3⟩

theorem bisectIter_bracket (h : Hybrid) (C : HybridCalculatorOriginal σ ρ) (t : ℚ) (f : Nat) :
    ∀ (k : Nat) (w : World σ) (b : Bracket) (w' : World σ) (b' : Bracket),
      BracketOk w b → h.bisectIter C t f k w b = some (w', b') → BracketOk w' b' := by
  intro k
  induction k with
  | zero =>
    intro w b w' b' hb hk
    simp only [Hybrid.bisectIter, Option.some.injEq, Prod.mk.injEq] at hk
    rw [← hk.1, ← hk.2]; exact hb
  | succ k ih =>
    intro w b w' b' hb hk
    simp only [Hybrid.bisectIter] at hk
    cases hs : h.bisectStep C t f w b with
    | ret s =>
      rw [hs] at hk
      cases s with
      | next w1 b1 =>
        simp only at hk
        split_ifs at hk with hkeep
        exact ih w1 b1 w' b' (bisectStep_bracket h C t f w b _ hb hs).2.2 hk
      | failed w1 b1 => simp at hk
      | lucky w1 b1 c => simp at hk
    | nullDeref => rw [hs] at hk; simp at hk
    | outOfFuel => rw [hs] at hk; simp at hk

/-- A pass through the bisection body on a bracket inside the range of `r`: the evaluated
point is the midpoint itself, and the bracket stays inside the range. -/
theorem bisectStep_inRange (h : Hybrid) (C : HybridCalculatorOriginal σ ρ) (t : ℚ) (f : Nat)
    (w : World σ) (b : Bracket) (x : Step σ) (hb : BracketInRange w b)
    (hx : h.bisectStep C t f w b = .ret x) :
    x.world.r.val = 1 / 2 * (b.rMin + b.rMax) ∧ BracketInRange x.world x.bracket := by
  obtain ⟨hb1, hb2, hb3⟩ := hb
  have hw := bisectStep_world h C t f w b x hx
  have hval : (w.r.setVal (1 / 2 * (b.rMin + b.rMax))).val = 1 / 2 * (b.rMin + b.rMax) :=
    setVal_val_of_mem _ _ (by linarith) (by linarith)
  obtain ⟨w1, c, hev, hcase⟩ := bisectStep_ret h C t f w b x hx
  have hmn : (w.r.setVal (1 / 2 * (b.rMin + b.rMax))).min = w.r.min := rfl
  have hmx : (w.r.setVal (1 / 2 * (b.rMin + b.rMax))).max = w.r.max := rfl
  rcases hcase with ⟨rfl, _⟩ | ⟨rfl, _⟩ | ⟨rfl, _⟩ | ⟨rfl, _⟩ <;>
    simp only [Step.world] at hw <;>
    simp only [Step.bracket, Step.world, BracketInRange, hw, hmn, hmx, hval, true_and]
  · exact ⟨hb1, hb2, hb3⟩
  · exact ⟨hb1, hb2, hb3⟩
  · exact ⟨hb1, by linarith, by linarith⟩
  · exact ⟨by linarith, by linarith, hb3⟩

theorem bisectIter_inRange (h : Hybrid) (C : HybridCalculatorOriginal σ ρ) (t : ℚ) (f : Nat) :
    ∀ (k : Nat) (w : World σ) (b : Bracket) (w' : World σ) (b' : Bracket),
      BracketInRange w b → h.bisectIter C t f k w b = some (w', b') →
      BracketInRange w' b' := by
  intro k
  induction k with
  | zero =>
    intro w b w' b' hb hk
    simp only [Hybrid.bisectIter, Option.some.injEq, Prod.mk.injEq] at hk
    rw [← hk.1, ← hk.2]; exact hb
  | succ k ih =>
    intro w b w' b' hb hk
    simp only [Hybrid.bisectIter] at hk
    cases hs : h.bisectStep C t f w b with
    | ret s =>
      rw [hs] at hk
      cases s with
      | next w1 b1 =>
        simp only at hk
        split_ifs at hk with hkeep
        exact ih w1 b1 w' b' (bisectStep_inRange h C t f w b _ hb hs).2 hk
      | failed w1 b1 => simp at hk
      | lucky w1 b1 c => simp at hk
    | nullDeref => rw [hs] at hk; simp at hk
    | outOfFuel => rw [hs] at hk; simp at hk

end BracketInvariant

/-- C7: for every engine and every initial `rMax ≥ 0`, if the bracket expansion ends by
`break`, then at the head of every pass `k` of the bisection loop the bracket has
`rMin ≤ rMax`, and whatever that pass returns (a moved edge, a direct hit or a failure) the
bracket it leaves has `rMin ≤ rMax` and a width `rMax - rMin` no larger than before the
pass. -/
theorem bisection_bracket_invariant {σ ρ : Type} (h : Hybrid)
    (C : HybridCalculatorOriginal σ ρ) (cl : ℚ) (fuel n : Nat) (w0 : World σ) (hint : Option ℚ)
    (w1 : World σ) (hM : 0 ≤ (applyHint w0.r hint).max)
    (hex : h.expandLoop C cl (applyHint w0.r hint).max fuel n
      { w0 with r := applyHint w0.r hint } = .ret (w1, true))
    (k : Nat) (w : World σ) (b : Bracket)
    (hk : h.bisectIter C (1 - cl) fuel k w1 ⟨0, w1.r.max, (1, 0), (0, 0)⟩ = some (w, b)) :
    b.rMin ≤ b.rMax ∧
      ∀ x, h.bisectStep C (1 - cl) fuel w b = .ret x →
        x.bracket.rMin ≤ x.bracket.rMax ∧
          x.bracket.rMax - x.bracket.rMin ≤ b.rMax - b.rMin := by
  have h0 : 0 ≤ w1.r.max := expandLoop_max_nonneg h C cl _ fuel n _ w1 true hM hex
  have hb : BracketOk w b :=
    bisectIter_bracket h C (1 - cl) fuel k w1 _ w b ⟨h0, w1.r.wf, le_rfl⟩ hk
  refine ⟨hb.1, fun x hx => ?_⟩
  have := bisectStep_bracket h C (1 - cl) fuel w b x hb hx
  exact ⟨this.1, this.2.1⟩

/-- Witness for C7: the example scenario started from `rMax = 8`; at the head of the third
pass the bracket is `[4, 6]`. -/
theorem bisection_bracket_invariant_witness :
    ((0 : ℚ) ≤ (applyHint (startWorld 8).r none).max ∧
      Hybrid.defaults.expandLoop (exactOracle (linearStat 5)) (19 / 20)
        (applyHint (startWorld 8).r none).max 1 1
        { startWorld 8 with r := applyHint (startWorld 8).r none }
        = .ret (⟨rooVar 0 8 8, (), [8]⟩, true) ∧
      Hybrid.defaults.bisectIter (exactOracle (linearStat 5)) (1 - 19 / 20) 1 2
        ⟨rooVar 0 8 8, (), [8]⟩ ⟨0, 8, (1, 0), (0, 0)⟩
        = some (⟨rooVar 0 8 6, (), [8, 4, 6]⟩, ⟨4, 6, (1 / 5, 0), (0, 0)⟩)) ∧
    ((4 : ℚ) ≤ 6 ∧
      ∀ x, Hybrid.defaults.bisectStep (exactOracle (linearStat 5)) (1 - 19 / 20) 1
          ⟨rooVar 0 8 6, (), [8, 4, 6]⟩ ⟨4, 6, (1 / 5, 0), (0, 0)⟩ = .ret x →
        x.bracket.rMin ≤ x.bracket.rMax ∧ x.bracket.rMax - x.bracket.rMin ≤ 6 - 4) :=
  ⟨⟨by decide!, by decide!, by decide!⟩,
    bisection_bracket_invariant Hybrid.defaults (exactOracle (linearStat 5)) (19 / 20) 1 1
      (startWorld 8) none ⟨rooVar 0 8 8, (), [8]⟩ (by decide!) (by decide!) 2
      ⟨rooVar 0 8 6, (), [8, 4, 6]⟩ ⟨4, 6, (1 / 5, 0), (0, 0)⟩ (by decide!)⟩

/-! ## The result of a successful run -/

/-- C6, amended: whenever `run` returns `true`: after a direct hit with no interval refinement
the returned limit is the current value of `r`, which is the last point the engine was called
at, namely the midpoint of the final bracket clipped into the range of `r`, and the estimate
`eval` returned there is within `clsAccuracy_` of `clsTarget`; when `0` lies in the range of
`r` as the hint of lines 53-55 leaves it, that point is the midpoint itself. After width
convergence the limit is `0.5 * (rMax + rMin)` of the final bracket, whose width is at most
`max(rAbsAccuracy_, rRelAccuracy_ * r)` for `r` the value of the parameter at the last
evaluation, so that half the width is at most half that tolerance. -/
theorem run_true_result {σ ρ : Type} (h : Hybrid) (C : HybridCalculatorOriginal σ ρ) (cl : ℚ)
    (fuel : Nat) (w0 : World σ) (limit : ℚ) (hint : Option ℚ) (out : RunOut σ)
    (hrun : h.run C cl fuel w0 limit hint = .ret out) (hok : out.ok = true) :
    (out.lucky = true → h.rInterval_ = false →
      out.limit = out.w.r.val ∧ out.w.calls.getLast? = some out.limit ∧
      out.limit = clip out.w.r.min out.w.r.max (1 / 2 * (out.b.rMin + out.b.rMax)) ∧
      (∃ wPrev e, h.eval C fuel wPrev (1 / 2 * (out.b.rMin + out.b.rMax)) true (1 - cl)
          = .ret (out.w, e) ∧ |e.1 - (1 - cl)| ≤ h.clsAccuracy_) ∧
      ((applyHint w0.r hint).min ≤ 0 → 0 ≤ (applyHint w0.r hint).max →
        out.limit = 1 / 2 * (out.b.rMin + out.b.rMax))) ∧
    (out.lucky = false →
      out.limit = 1 / 2 * (out.b.rMax + out.b.rMin) ∧
      out.w.calls.getLast? = some out.w.r.val ∧
      out.b.rMax - out.b.rMin ≤ max h.rAbsAccuracy_ (h.rRelAccuracy_ * out.w.r.val) ∧
      1 / 2 * (out.b.rMax - out.b.rMin)
        ≤ 1 / 2 * max h.rAbsAccuracy_ (h.rRelAccuracy_ * out.w.r.val)) := by
  rcases run_ret_cases h C cl fuel w0 limit hint out hrun with
    ⟨w1, _, rfl⟩ | ⟨w1, hex, ⟨w2, b, _, rfl⟩ | ⟨w2, b, c, hb, hi, rfl⟩ |
      ⟨w2, b, c, w3, b3, hb, hi, hr, rfl⟩ | ⟨w2, b, hb, rfl⟩⟩
  · simp at hok
  · simp at hok
  · refine ⟨fun _ _ => ?_, fun hl => by simp at hl⟩
    obtain ⟨k, wp, bp, hit, hst, _⟩ := bisectLoop_last h C (1 - cl) fuel fuel _ _ _ hb
    obtain ⟨w1', c', hev, hcase⟩ := bisectStep_ret h C (1 - cl) fuel wp bp _ hst
    rcases hcase with ⟨hx, _⟩ | ⟨hx, _, hacc⟩ | ⟨hx, _⟩ | ⟨hx, _⟩
    · cases hx
    · simp only [Step.lucky.injEq] at hx
      obtain ⟨rfl, rfl, rfl⟩ := hx
      obtain ⟨hr, n, hcalls⟩ := eval_ret_world h C fuel wp _ true (1 - cl) _ _ hev
      refine ⟨rfl, ?_, ?_, ⟨wp, c, hev, hacc⟩, fun hmin hmax => ?_⟩
      · show w2.calls.getLast? = some w2.r.val
        rw [hcalls, hr]; exact getLast?_append_replicate_succ _ _ _
      · show w2.r.val = clip w2.r.min w2.r.max (1 / 2 * (b.rMin + b.rMax))
        rw [hr]; rfl
      · show w2.r.val = 1 / 2 * (b.rMin + b.rMax)
        have h0 : 0 ≤ w1.r.max := expandLoop_max_nonneg h C cl _ fuel fuel _ w1 true hmax hex
        have h1 : w1.r.min ≤ 0 := by
          rw [expandLoop_min h C cl _ fuel fuel _ w1 true hex]; exact hmin
        have hin : BracketInRange wp b :=
          bisectIter_inRange h C (1 - cl) fuel k w1 _ wp b ⟨h1, h0, le_rfl⟩ hit
        exact (bisectStep_inRange h C (1 - cl) fuel wp b _ hin hst).1
    · cases hx
    · cases hx
  · refine ⟨fun _ hi' => ?_, fun hl => by simp at hl⟩
    rw [hi] at hi'; cases hi'
  · refine ⟨fun hl => by simp at hl, fun _ => ?_⟩
    obtain ⟨k, wp, bp, _, hst, hnk⟩ := bisectLoop_last h C (1 - cl) fuel fuel _ _ _ hb
    obtain ⟨w1', c', hev, hcase⟩ := bisectStep_ret h C (1 - cl) fuel wp bp _ hst
    obtain ⟨hr, n, hcalls⟩ := eval_ret_world h C fuel wp _ true (1 - cl) _ _ hev
    have hw : w1' = w2 := by
      rcases hcase with ⟨hx, _⟩ | ⟨hx, _⟩ | ⟨hx, _⟩ | ⟨hx, _⟩
      · cases hx
      · cases hx
      · simp only [Step.next.injEq] at hx; exact hx.1.symm
      · simp only [Step.next.injEq] at hx; exact hx.1.symm
    subst hw
    have hwidth : b.rMax - b.rMin ≤ max h.rAbsAccuracy_ (h.rRelAccuracy_ * w1'.r.val) := by
      have := hnk w1' b rfl
      unfold Hybrid.keepBisecting at this
      exact not_lt.1 this
    refine ⟨rfl, ?_, hwidth, by linarith⟩
    show w1'.calls.getLast? = some w1'.r.val
    rw [hcalls, hr]; exact getLast?_append_replicate_succ _ _ _

/-- Witness for C6: the example scenario started from `rMax = 8` ends with a direct hit at
`r = 4.75`, the midpoint of the final bracket `[4.5, 5]`. -/
theorem run_true_result_witness :
    (Hybrid.defaults.run (exactOracle (linearStat 5)) (19 / 20) 5 (startWorld 8) 0 none
        = .ret ⟨true, 19 / 4, ⟨rooVar 0 8 (19 / 4), (), [8, 4, 6, 5, 9 / 2, 19 / 4]⟩,
            ⟨9 / 2, 5, (1 / 10, 0), (0, 0)⟩, true⟩) ∧
    ((true = true → Hybrid.defaults.rInterval_ = false →
      (19 / 4 : ℚ) = (rooVar 0 8 (19 / 4)).val ∧
      [8, 4, 6, 5, 9 / 2, (19 / 4 : ℚ)].getLast? = some (19 / 4) ∧
      (19 / 4 : ℚ) = clip (rooVar 0 8 (19 / 4)).min (rooVar 0 8 (19 / 4)).max
        (1 / 2 * (9 / 2 + 5)) ∧
      (∃ wPrev e, Hybrid.defaults.eval (exactOracle (linearStat 5)) 5 wPrev
          (1 / 2 * (9 / 2 + 5)) true (1 - 19 / 20)
          = .ret (⟨rooVar 0 8 (19 / 4), (), [8, 4, 6, 5, 9 / 2, 19 / 4]⟩, e) ∧
        |e.1 - (1 - 19 / 20)| ≤ Hybrid.defaults.clsAccuracy_) ∧
      ((applyHint (startWorld 8).r none).min ≤ 0 → 0 ≤ (applyHint (startWorld 8).r none).max →
        (19 / 4 : ℚ) = 1 / 2 * (9 / 2 + 5))) ∧
    (true = false →
      (19 / 4 : ℚ) = 1 / 2 * (5 + 9 / 2) ∧
      [8, 4, 6, 5, 9 / 2, (19 / 4 : ℚ)].getLast? = some (rooVar 0 8 (19 / 4)).val ∧
      (5 : ℚ) - 9 / 2 ≤ max Hybrid.defaults.rAbsAccuracy_
        (Hybrid.defaults.rRelAccuracy_ * (rooVar 0 8 (19 / 4)).val) ∧
      1 / 2 * ((5 : ℚ) - 9 / 2)
        ≤ 1 / 2 * max Hybrid.defaults.rAbsAccuracy_
          (Hybrid.defaults.rRelAccuracy_ * (rooVar 0 8 (19 / 4)).val))) :=
  ⟨by decide!,
    run_true_result Hybrid.defaults (exactOracle (linearStat 5)) (19 / 20) 5 (startWorld 8) 0 none
      ⟨true, 19 / 4, ⟨rooVar 0 8 (19 / 4), (), [8, 4, 6, 5, 9 / 2, 19 / 4]⟩,
        ⟨9 / 2, 5, (1 / 10, 0), (0, 0)⟩, true⟩ (by decide!) rfl⟩

/-- C6 as stated fails: with `r` ranging over `[1.5, 8]`, the statistic `0` from `r = 2` on and
`0.05` below, and `cl = 0.95`, the third midpoint `1` of the bracket `[0, 2]` is clipped to
`1.5` by `setVal`; the engine is called at `1.5`, the estimate there is a direct hit, and `run`
returns `true` with the limit `1.5`, which is not the bracket midpoint `0.5 * (0 + 2)`. -/
theorem run_limit_is_clipped_midpoint :
    (∀ n, Hybrid.defaults.run (exactOracle cutStat) (19 / 20) (n + 5)
        ⟨rooVar (3 / 2) 8 (3 / 2), (), []⟩ 0 none
        = .ret ⟨true, 3 / 2, ⟨rooVar (3 / 2) 8 (3 / 2), (), [8, 4, 2, 3 / 2]⟩,
            ⟨0, 2, (1, 0), (0, 0)⟩, true⟩) ∧
    Hybrid.defaults.rInterval_ = false ∧
    (3 / 2 : ℚ) ≠ 1 / 2 * (0 + 2) ∧
    (3 / 2 : ℚ) = clip (3 / 2) 8 (1 / 2 * (0 + 2)) := by
  refine ⟨fun n => ?_, rfl, by decide!, by decide!⟩
  exact run_mono Hybrid.defaults (exactOracle cutStat) (19 / 20) 5 (n + 5)
    (Nat.le_add_left 5 n) _ 0 none _ (by decide!) (by simp)

/-! ## Interval refinement -/

section Refinement

variable {σ ρ : Type}

/-- The low-side loop moves `r` from below towards `limit` by midpoints and copies it into
`rMin`: when `limit` lies in the range of `r`, no midpoint is clipped, and the returned `rMin`
is at least the one on entry and at most `limit`. The range of `r` is left alone. -/
theorem refineLow_bounds (h : Hybrid) (C : HybridCalculatorOriginal σ ρ) (t : ℚ) (f : Nat)
    (limit bound : ℚ) (clsMin : CLs_t) :
    ∀ (n : Nat) (w : World σ) (rMin : ℚ) (c : CLs_t) (w' : World σ) (rMin' : ℚ) (c' : CLs_t),
      h.refineLow C t f limit bound clsMin n w rMin c = .ret (w', rMin', c') →
      rMin ≤ w.r.val → w.r.val ≤ limit → w.r.min ≤ w.r.val → limit ≤ w.r.max →
      rMin ≤ rMin' ∧ rMin' ≤ limit ∧ w'.r.min = w.r.min ∧ w'.r.max = w.r.max := by
  intro n
  induction n with
  | zero => intro w rMin c w' rMin' c' hx; simp [Hybrid.refineLow] at hx
  | succ n ih =>
    intro w rMin c w' rMin' c' hx h1 h2 h3 h4
    simp only [Hybrid.refineLow] at hx
    split_ifs at hx with hc
    · cases he : h.eval C f w (1 / 2 * (w.r.val + limit)) true t with
      | ret p =>
        obtain ⟨w1, c1⟩ := p
        rw [he] at hx
        simp only at hx
        have hr := (eval_ret_world h C f w _ true t _ _ he).1
        have hval : w1.r.val = 1 / 2 * (w.r.val + limit) := by
          rw [hr]; exact setVal_val_of_mem _ _ (by linarith) (by linarith)
        have hmn : w1.r.min = w.r.min := by rw [hr]; rfl
        have hmx : w1.r.max = w.r.max := by rw [hr]; rfl
        obtain ⟨g1, g2, g3, g4⟩ := ih w1 w1.r.val c1 w' rMin' c' hx le_rfl
          (by rw [hval]; linarith) (by rw [hval, hmn]; linarith) (by rw [hmx]; exact h4)
        exact ⟨by rw [hval] at g1; linarith, g2, by rw [g3, hmn], by rw [g4, hmx]⟩
      | nullDeref => rw [he] at hx; cases hx
      | outOfFuel => rw [he] at hx; cases hx
    · simp only [Res.ret.injEq, Prod.mk.injEq] at hx
      rw [← hx.2.1, ← hx.1]
      exact ⟨le_rfl, le_trans h1 h2, rfl, rfl⟩

/-- The high-side loop moves `r` from above towards `limit` by midpoints and copies it into
`rMax`: when `limit` lies in the range of `r`, the returned `rMax` is at most the one on entry
and at least `limit`. -/
theorem refineHigh_bounds (h : Hybrid) (C : HybridCalculatorOriginal σ ρ) (t : ℚ) (f : Nat)
    (limit bound : ℚ) :
    ∀ (n : Nat) (w : World σ) (rMax : ℚ) (c : CLs_t) (w' : World σ) (rMax' : ℚ) (c' : CLs_t),
      h.refineHigh C t f limit bound n w rMax c = .ret (w', rMax', c') →
      w.r.val ≤ rMax → limit ≤ w.r.val → w.r.val ≤ w.r.max → w.r.min ≤ limit →
      rMax' ≤ rMax ∧ limit ≤ rMax' := by
  intro n
  induction n with
  | zero => intro w rMax c w' rMax' c' hx; simp [Hybrid.refineHigh] at hx
  | succ n ih =>
    intro w rMax c w' rMax' c' hx h1 h2 h3 h4
    simp only [Hybrid.refineHigh] at hx
    split_ifs at hx with hc
    · cases he : h.eval C f w (1 / 2 * (w.r.val + limit)) true t with
      | ret p =>
        obtain ⟨w1, c1⟩ := p
        rw [he] at hx
        simp only at hx
        have hr := (eval_ret_world h C f w _ true t _ _ he).1
        have hval : w1.r.val = 1 / 2 * (w.r.val + limit) := by
          rw [hr]; exact setVal_val_of_mem _ _ (by linarith) (by linarith)
        have hmn : w1.r.min = w.r.min := by rw [hr]; rfl
        have hmx : w1.r.max = w.r.max := by rw [hr]; rfl
        obtain ⟨g1, g2⟩ := ih w1 w1.r.val c1 w' rMax' c' hx le_rfl
          (by rw [hval]; linarith) (by rw [hval, hmx]; linarith) (by rw [hmn]; exact h4)
        exact ⟨by rw [hval] at g1; linarith, g2⟩
      | nullDeref => rw [he] at hx; cases hx
      | outOfFuel => rw [he] at hx; cases hx
    · simp only [Res.ret.injEq, Prod.mk.injEq] at hx
      rw [← hx.2.1]
      exact ⟨le_rfl, le_trans h2 h1⟩

/-- The interval refinement around a `limit` that lies in the range of `r` and in the bracket
on entry: the refined edges stay between the edges on entry and `limit`. -/
theorem refine_bounds (h : Hybrid) (C : HybridCalculatorOriginal σ ρ)
    (t : ℚ) (fuel : Nat) (limit : ℚ) (w : World σ) (b : Bracket) (w' : World σ) (b' : Bracket)
    (hr : h.refine C t fuel limit w b = .ret (w', b'))
    (hmin : w.r.min ≤ limit) (hmax : limit ≤ w.r.max)
    (hlo : b.rMin ≤ limit) (hhi : limit ≤ b.rMax) :
    b.rMin ≤ b'.rMin ∧ b'.rMin ≤ limit ∧ limit ≤ b'.rMax ∧ b'.rMax ≤ b.rMax := by
  simp only [Hybrid.refine] at hr
  cases hl : h.refineLow C t fuel limit
      (limit - 1 / 2 * max h.rAbsAccuracy_ (h.rRelAccuracy_ * limit)) b.clsMin fuel
      { w with r := w.r.setVal b.rMin } b.rMin b.clsMax with
  | ret p =>
    obtain ⟨w1, rMin, c1⟩ := p
    rw [hl] at hr
    simp only at hr
    have hin := clip_between w.r.min w.r.max b.rMin b.rMin limit ⟨le_rfl, hlo⟩
      (le_total b.rMin w.r.min) hmin hmax
    obtain ⟨l1, l2, l3, l4⟩ := refineLow_bounds h C t fuel limit _ _ fuel _ _ _ _ _ _ hl
      hin.1 hin.2 (setVal_val_mem w.r b.rMin).1 hmax
    have l3' : w1.r.min = w.r.min := l3
    have l4' : w1.r.max = w.r.max := l4
    cases hh : h.refineHigh C t fuel limit
        (limit + 1 / 2 * max h.rAbsAccuracy_ (h.rRelAccuracy_ * limit)) fuel
        { w1 with r := w1.r.setVal b.rMax } b.rMax c1 with
    | ret q =>
      obtain ⟨w2, rMax, c2⟩ := q
      rw [hh] at hr
      simp only [Res.ret.injEq, Prod.mk.injEq] at hr
      have hin2 : (w1.r.setVal b.rMax).val ≤ b.rMax ∧ limit ≤ (w1.r.setVal b.rMax).val := by
        rw [setVal_val, l3', l4']
        unfold clip
        split_ifs with g1 g2
        · exact absurd (le_trans hmin hhi) (not_le.2 g1)
        · exact ⟨le_of_lt g2, hmax⟩
        · exact ⟨le_rfl, hhi⟩
      obtain ⟨u1, u2⟩ := refineHigh_bounds h C t fuel limit _ fuel _ _ _ _ _ _ hh
        hin2.1 hin2.2 (setVal_val_mem w1.r b.rMax).2 (by show w1.r.min ≤ limit; rw [l3']; exact hmin)
      rw [← hr.2]
      exact ⟨l1, l2, u2, u1⟩
    | nullDeref => rw [hh] at hr; cases hr
    | outOfFuel => rw [hh] at hr; cases hr
  | nullDeref => rw [hl] at hr; cases hr
  | outOfFuel => rw [hl] at hr; cases hr

end Refinement

/-- The bounds of `refine_bounds` need `limit` to lie in the range of `r`: with `r` ranging
over `[0, 3]`, `limit = 5`, the bracket `[4, 6]` and negative tolerances, `setVal(rMax)`
is clipped to `3`, the high-side loop makes one pass and copies `3` into `rMax`, below
`limit`. On the direct-hit path `limit` is `r->getVal()`, which lies in the range. -/
theorem refine_limit_outside_range :
    { Hybrid.defaults with rAbsAccuracy_ := -100, rRelAccuracy_ := -100 }.refine
        (exactOracle (fun _ => 1 / 20)) (1 / 20) 2 5 ⟨rooVar 0 3 3, (), []⟩
        ⟨4, 6, (1 / 20, 0), (0, 0)⟩
      = .ret (⟨rooVar 0 3 3, (), [3]⟩, ⟨4, 3, (1 / 20, 0), (1 / 20, 0)⟩) ∧
    (4 : ℚ) < 5 ∧ (5 : ℚ) < 6 ∧ ¬ ((5 : ℚ) ≤ 3) := by
  refine ⟨by decide!, by decide!, by decide!, by decide!⟩

/-- C8: when the bisection loop ends by a direct hit, leaving the bracket `b` and the limit
`r->getVal()`, and the interval refinement of lines 97-110 then runs around that limit with
`rMin < limit < rMax` on entry and returns, then for every engine the refined `rMin` is at
least the `rMin` on entry and at most `limit`, and the refined `rMax` is at most the `rMax` on
entry and at least `limit`. -/
theorem refine_edges_bounded {σ ρ : Type} (h : Hybrid) (C : HybridCalculatorOriginal σ ρ)
    (t : ℚ) (fuel n : Nat) (wStart : World σ) (bStart : Bracket) (w : World σ) (b : Bracket)
    (c : CLs_t) (w' : World σ) (b' : Bracket)
    (hb : h.bisectLoop C t fuel n wStart bStart = .ret (.lucky w b c))
    (hr : h.refine C t fuel w.r.val w b = .ret (w', b'))
    (hlo : b.rMin < w.r.val) (hhi : w.r.val < b.rMax) :
    b.rMin ≤ b'.rMin ∧ b'.rMin ≤ w.r.val ∧ w.r.val ≤ b'.rMax ∧ b'.rMax ≤ b.rMax := by
  obtain ⟨k, wp, bp, _, hst, _⟩ := bisectLoop_last h C t fuel n _ _ _ hb
  have hw : w.r = wp.r.setVal (1 / 2 * (bp.rMin + bp.rMax)) :=
    bisectStep_world h C t fuel wp bp _ hst
  have hmem : w.r.min ≤ w.r.val ∧ w.r.val ≤ w.r.max := by
    rw [hw]; exact setVal_val_mem wp.r _
  exact refine_bounds h C t fuel w.r.val w b w' b' hr hmem.1 hmem.2 (le_of_lt hlo) (le_of_lt hhi)

/-- Witness for C8: the bisection of the example scenario ends by a direct hit at `4.75` with
the bracket `[4.5, 5]`; the refinement around it returns the edges `75/16` and `77/16`. -/
theorem refine_edges_bounded_witness :
    ({ Hybrid.defaults with rInterval_ := true }.bisectLoop (exactOracle (linearStat 5))
        (1 / 20) 5 5 ⟨rooVar 0 8 8, (), [8]⟩ ⟨0, 8, (1, 0), (0, 0)⟩
      = .ret (.lucky ⟨rooVar 0 8 (19 / 4), (), [8, 4, 6, 5, 9 / 2, 19 / 4]⟩
          ⟨9 / 2, 5, (1 / 10, 0), (0, 0)⟩ (1 / 20, 0)) ∧
      { Hybrid.defaults with rInterval_ := true }.refine (exactOracle (linearStat 5)) (1 / 20) 5
        (rooVar 0 8 (19 / 4)).val ⟨rooVar 0 8 (19 / 4), (), [8, 4, 6, 5, 9 / 2, 19 / 4]⟩
        ⟨9 / 2, 5, (1 / 10, 0), (0, 0)⟩
      = .ret (⟨rooVar 0 8 (77 / 16), (),
            [8, 4, 6, 5, 9 / 2, 19 / 4, 37 / 8, 75 / 16, 39 / 8, 77 / 16]⟩,
          ⟨75 / 16, 77 / 16, (1 / 10, 0), (3 / 80, 0)⟩) ∧
      (9 / 2 : ℚ) < (rooVar 0 8 (19 / 4)).val ∧ (rooVar 0 8 (19 / 4)).val < 5) ∧
    ((9 / 2 : ℚ) ≤ 75 / 16 ∧ (75 / 16 : ℚ) ≤ (rooVar 0 8 (19 / 4)).val ∧
      (rooVar 0 8 (19 / 4)).val ≤ 77 / 16 ∧ (77 / 16 : ℚ) ≤ 5) :=
  ⟨⟨by decide!, by decide!, by decide!, by decide!⟩,
    refine_edges_bounded { Hybrid.defaults with rInterval_ := true }
      (exactOracle (linearStat 5)) (1 / 20) 5 5 ⟨rooVar 0 8 8, (), [8]⟩ ⟨0, 8, (1, 0), (0, 0)⟩
      ⟨rooVar 0 8 (19 / 4), (), [8, 4, 6, 5, 9 / 2, 19 / 4]⟩
      ⟨9 / 2, 5, (1 / 10, 0), (0, 0)⟩ (1 / 20, 0)
      ⟨rooVar 0 8 (77 / 16), (), [8, 4, 6, 5, 9 / 2, 19 / 4, 37 / 8, 75 / 16, 39 / 8, 77 / 16]⟩
      ⟨75 / 16, 77 / 16, (1 / 10, 0), (3 / 80, 0)⟩ (by decide!) (by decide!) (by decide!)
      (by decide!)⟩

/-! ## The zero-error engine with statistic `max(0, 1 - r/k)` -/

section LinearOracle

/-- With the zero-error engine the adaptive loop never asks for more: `eval` makes one call
and returns `(stat v, 0)`. -/
theorem eval_exact (h : Hybrid) (stat : ℚ → ℚ) (f : Nat) (w : World Unit) (v : ℚ) (a : Bool)
    (t : ℚ) :
    h.eval (exactOracle stat) (f + 1) w v a t
      = .ret (⟨w.r.setVal v, (), w.calls ++ [(w.r.setVal v).val]⟩,
          (stat (w.r.setVal v).val, 0)) := by
  have hnw : ∀ u, ¬ h.wantsMore t (stat u, 0) := by
    intro u
    unfold Hybrid.wantsMore
    intro hh
    have := abs_nonneg (stat u - t)
    simp only [mul_zero] at hh
    linarith [hh.1]
  cases a
  · simp [Hybrid.eval, exactOracle, Hybrid.estimate]
  · simp only [Hybrid.eval, exactOracle, if_true, Hybrid.adaptiveLoop]
    simp only [Hybrid.estimate, ite_self, hnw, if_false]

/-- A pass through the bisection body with the zero-error engine; `m` is the point the
engine is called at. -/
theorem bisectStep_exact (h : Hybrid) (stat : ℚ → ℚ) (t : ℚ) (f : Nat) (w : World Unit)
    (b : Bracket) (m : ℚ) (hm : (w.r.setVal (1 / 2 * (b.rMin + b.rMax))).val = m) :
    h.bisectStep (exactOracle stat) t (f + 1) w b
      = if |stat m - t| ≤ h.clsAccuracy_ then
          .ret (.lucky ⟨w.r.setVal (1 / 2 * (b.rMin + b.rMax)), (), w.calls ++ [m]⟩ b
            (stat m, 0))
        else if decide (stat m > t) = decide (b.clsMax.1 > t) then
          .ret (.next ⟨w.r.setVal (1 / 2 * (b.rMin + b.rMax)), (), w.calls ++ [m]⟩
            { b with rMax := m, clsMax := (stat m, 0) })
        else
          .ret (.next ⟨w.r.setVal (1 / 2 * (b.rMin + b.rMax)), (), w.calls ++ [m]⟩
            { b with rMin := m, clsMin := (stat m, 0) }) := by
  have h0 : ¬ ((0 : ℚ) = -1) := by norm_num
  simp only [Hybrid.bisectStep, eval_exact, h0, if_false, hm]

end LinearOracle

/-! ## Termination of bisection -/

section BisectionBound

variable {σ ρ : Type}

/-- A pass beyond the first is only entered under the loop condition of line 93. -/
theorem bisectIter_succ_keeps (h : Hybrid) (C : HybridCalculatorOriginal σ ρ) (t : ℚ)
    (f : Nat) :
    ∀ (k : Nat) (w : World σ) (b : Bracket) (w' : World σ) (b' : Bracket),
      h.bisectIter C t f (k + 1) w b = some (w', b') → h.keepBisecting w' b' := by
  intro k
  induction k with
  | zero =>
    intro w b w' b' hk
    simp only [Hybrid.bisectIter] at hk
    cases hs : h.bisectStep C t f w b with
    | ret s =>
      rw [hs] at hk
      cases s with
      | next w1 b1 =>
        simp only at hk
        split_ifs at hk with hkeep
        simp only [Option.some.injEq, Prod.mk.injEq] at hk
        rw [← hk.1, ← hk.2]; exact hkeep
      | failed w1 b1 => simp at hk
      | lucky w1 b1 c => simp at hk
    | nullDeref => rw [hs] at hk; simp at hk
    | outOfFuel => rw [hs] at hk; simp at hk
  | succ k ih =>
    intro w b w' b' hk
    rw [Hybrid.bisectIter] at hk
    cases hs : h.bisectStep C t f w b with
    | ret s =>
      rw [hs] at hk
      cases s with
      | next w1 b1 =>
        simp only at hk
        split_ifs at hk with hkeep
        exact ih w1 b1 w' b' hk
      | failed w1 b1 => simp at hk
      | lucky w1 b1 c => simp at hk
    | nullDeref => rw [hs] at hk; simp at hk
    | outOfFuel => rw [hs] at hk; simp at hk

/-- The loop run from the start with `k` more passes of fuel behaves as the loop run from the
head of pass `k`. -/
theorem bisectLoop_of_iter (h : Hybrid) (C : HybridCalculatorOriginal σ ρ) (t : ℚ) (f : Nat) :
    ∀ (k n : Nat) (w : World σ) (b : Bracket) (w1 : World σ) (b1 : Bracket),
      h.bisectIter C t f k w b = some (w1, b1) →
      h.bisectLoop C t f (n + k) w b = h.bisectLoop C t f n w1 b1 := by
  intro k
  induction k with
  | zero =>
    intro n w b w1 b1 hk
    simp only [Hybrid.bisectIter, Option.some.injEq, Prod.mk.injEq] at hk
    rw [← hk.1, ← hk.2]; rfl
  | succ k ih =>
    intro n w b w1 b1 hk
    simp only [Hybrid.bisectIter] at hk
    cases hs : h.bisectStep C t f w b with
    | ret s =>
      rw [hs] at hk
      cases s with
      | next w2 b2 =>
        simp only at hk
        split_ifs at hk with hkeep
        have : n + (k + 1) = (n + k) + 1 := by omega
        rw [this, Hybrid.bisectLoop, hs]
        simp only [hkeep, if_true]
        exact ih n w2 b2 w1 b1 hk
      | failed w2 b2 => simp at hk
      | lucky w2 b2 c => simp at hk
    | nullDeref => rw [hs] at hk; simp at hk
    | outOfFuel => rw [hs] at hk; simp at hk

end BisectionBound

/-! ## Bisection below the range of the parameter -/

/-- With `r` ranging over `[1, 8]`, the linear statistic of `k = 5` and the target `0.9`, the
bisection loop at the bracket `[0, 1]` asks for the midpoint `0.5`, which `setVal` clips to
`1`: the pass leaves the bracket as it found it, and no amount of fuel ends the loop. -/
theorem bisectLoop_stuck (f : Nat) :
    ∀ (n : Nat) (calls : List ℚ),
      Hybrid.defaults.bisectLoop (exactOracle (linearStat 5)) (9 / 10) (f + 1) n
        ⟨rooVar 1 8 1, (), calls⟩ ⟨0, 1, (1, 0), (4 / 5, 0)⟩ = .outOfFuel := by
  intro n
  induction n with
  | zero => intro calls; rfl
  | succ n ih =>
    intro calls
    have hm : ((rooVar 1 8 1).setVal (1 / 2 * (0 + 1))).val = 1 := by decide!
    have hset : (rooVar 1 8 1).setVal (1 / 2 * (0 + 1)) = rooVar 1 8 1 := by decide!
    have h1 : ¬ |linearStat 5 1 - 9 / 10| ≤ Hybrid.defaults.clsAccuracy_ := by decide!
    have h2 : decide (linearStat 5 1 > 9 / 10) = decide ((4 / 5 : ℚ) > 9 / 10) := by decide!
    have h3 : linearStat 5 1 = 4 / 5 := by decide!
    have hkeep : Hybrid.defaults.keepBisecting (⟨rooVar 1 8 1, (), calls ++ [1]⟩ : World Unit)
        ⟨0, 1, (1, 0), (4 / 5, 0)⟩ := by
      unfold Hybrid.keepBisecting
      show (1 : ℚ) - 0 > max Hybrid.defaults.rAbsAccuracy_
        (Hybrid.defaults.rRelAccuracy_ * (rooVar 1 8 1).val)
      decide!
    have hstep := bisectStep_exact Hybrid.defaults (linearStat 5) (9 / 10) f
      (⟨rooVar 1 8 1, (), calls⟩ : World Unit) ⟨0, 1, (1, 0), (4 / 5, 0)⟩ 1 hm
    rw [if_neg h1, if_pos h2, hset, h3] at hstep
    rw [Hybrid.bisectLoop, hstep]
    simp only [hkeep, if_true]
    exact ih _

/-- The first three passes of that bisection, from the bracket `[0, 8]`, lead to the bracket
`[0, 1]` in which it is stuck. -/
theorem bisectIter_below_range (f : Nat) :
    Hybrid.defaults.bisectIter (exactOracle (linearStat 5)) (9 / 10) (f + 1) 3
        ⟨rooVar 1 8 8, (), [8]⟩ ⟨0, 8, (1, 0), (0, 0)⟩
      = some (⟨rooVar 1 8 1, (), [8, 4, 2, 1]⟩, ⟨0, 1, (1, 0), (4 / 5, 0)⟩) := by
  have hs1 := bisectStep_mono Hybrid.defaults (exactOracle (linearStat 5)) (9 / 10) 1 (f + 1)
    (Nat.le_add_left 1 f) ⟨rooVar 1 8 8, (), [8]⟩ ⟨0, 8, (1, 0), (0, 0)⟩
    (.ret (.next ⟨rooVar 1 8 4, (), [8, 4]⟩ ⟨0, 4, (1, 0), (1 / 5, 0)⟩)) (by decide!) (by simp)
  have hs2 := bisectStep_mono Hybrid.defaults (exactOracle (linearStat 5)) (9 / 10) 1 (f + 1)
    (Nat.le_add_left 1 f) ⟨rooVar 1 8 4, (), [8, 4]⟩ ⟨0, 4, (1, 0), (1 / 5, 0)⟩
    (.ret (.next ⟨rooVar 1 8 2, (), [8, 4, 2]⟩ ⟨0, 2, (1, 0), (3 / 5, 0)⟩)) (by decide!) (by simp)
  have hs3 := bisectStep_mono Hybrid.defaults (exactOracle (linearStat 5)) (9 / 10) 1 (f + 1)
    (Nat.le_add_left 1 f) ⟨rooVar 1 8 2, (), [8, 4, 2]⟩ ⟨0, 2, (1, 0), (3 / 5, 0)⟩
    (.ret (.next ⟨rooVar 1 8 1, (), [8, 4, 2, 1]⟩ ⟨0, 1, (1, 0), (4 / 5, 0)⟩)) (by decide!)
    (by simp)
  have hk1 : Hybrid.defaults.keepBisecting (⟨rooVar 1 8 4, (), [8, 4]⟩ : World Unit)
      ⟨0, 4, (1, 0), (1 / 5, 0)⟩ := by decide!
  have hk2 : Hybrid.defaults.keepBisecting (⟨rooVar 1 8 2, (), [8, 4, 2]⟩ : World Unit)
      ⟨0, 2, (1, 0), (3 / 5, 0)⟩ := by decide!
  have hk3 : Hybrid.defaults.keepBisecting (⟨rooVar 1 8 1, (), [8, 4, 2, 1]⟩ : World Unit)
      ⟨0, 1, (1, 0), (4 / 5, 0)⟩ := by decide!
  simp only [Hybrid.bisectIter, hs1, hk1, if_true, hs2, hk2, hs3, hk3]

/-- Bisection from the bracket `[0, 8]` with `r` ranging over `[1, 8]`, the linear statistic of
`k = 5` and the target `0.9` does not end, whatever the fuel. -/
theorem bisectLoop_below_range (f n : Nat) :
    Hybrid.defaults.bisectLoop (exactOracle (linearStat 5)) (9 / 10) (f + 1) n
        ⟨rooVar 1 8 8, (), [8]⟩ ⟨0, 8, (1, 0), (0, 0)⟩ = .outOfFuel := by
  by_contra hne
  have hmono := bisectLoop_mono Hybrid.defaults (exactOracle (linearStat 5)) (9 / 10) (f + 1)
    (f + 1) le_rfl n (n + 3) ⟨rooVar 1 8 8, (), [8]⟩ ⟨0, 8, (1, 0), (0, 0)⟩ _
    (Nat.le_add_right n 3) rfl hne
  rw [bisectLoop_of_iter Hybrid.defaults (exactOracle (linearStat 5)) (9 / 10) (f + 1) 3 n
    _ _ _ _ (bisectIter_below_range f), bisectLoop_stuck f n] at hmono
  exact hne hmono.symm

/-! ## The limit found for the linear statistic -/

/-- Without `getMin() ≤ 0` the search need not return: with `r` ranging over `[1, 8]`, `k = 5`
and `cl = 0.1` the point `k * cl = 0.5` lies below the range, every midpoint below `1` is
clipped to `1`, and `run` does not return, whatever the fuel. -/
theorem run_below_range_never_returns (fuel : Nat) :
    Hybrid.defaults.run (exactOracle (linearStat 5)) (1 / 10) fuel ⟨rooVar 1 8 1, (), []⟩ 0 none
      = .outOfFuel := by
  cases fuel with
  | zero => rfl
  | succ f =>
    have hexp : Hybrid.defaults.expandLoop (exactOracle (linearStat 5)) (1 / 10)
        (applyHint (⟨rooVar 1 8 1, (), []⟩ : World Unit).r none).max (f + 1) (f + 1)
        { (⟨rooVar 1 8 1, (), []⟩ : World Unit) with
          r := applyHint (⟨rooVar 1 8 1, (), []⟩ : World Unit).r none }
        = .ret (⟨rooVar 1 8 8, (), [8]⟩, true) :=
      expandLoop_mono Hybrid.defaults _ (1 / 10) _ 1 (f + 1) (by omega) 1 (f + 1) _ _
        (by omega) (by decide!) (by simp)
    have hloop : Hybrid.defaults.bisectLoop (exactOracle (linearStat 5)) (1 - 1 / 10) (f + 1)
        (f + 1) ⟨rooVar 1 8 8, (), [8]⟩
        ⟨0, (⟨rooVar 1 8 8, (), [8]⟩ : World Unit).r.max, (1, 0), (0, 0)⟩ = .outOfFuel := by
      have e1 : (1 - 1 / 10 : ℚ) = 9 / 10 := by norm_num
      have e2 : (⟨rooVar 1 8 8, (), [8]⟩ : World Unit).r.max = 8 := by decide!
      rw [e1, e2]
      exact bisectLoop_below_range f (f + 1)
    simp only [Hybrid.run, hexp, hloop]

/-! ## Failure leaves the caller's limit alone -/

/-- C10: whenever `run` returns `false` (the cutoff of line 70 or the failure check of
line 81), the reference parameter `limit` holds the value it had on entry. -/
theorem run_false_keeps_limit {σ ρ : Type} (h : Hybrid) (C : HybridCalculatorOriginal σ ρ)
    (cl : ℚ) (fuel : Nat) (w0 : World σ) (limit : ℚ) (hint : Option ℚ) (out : RunOut σ)
    (hrun : h.run C cl fuel w0 limit hint = .ret out) (hok : out.ok = false) :
    out.limit = limit := by
  rcases run_ret_cases h C cl fuel w0 limit hint out hrun with
    ⟨w1, _, rfl⟩ | ⟨w1, _, ⟨w2, b, _, rfl⟩ | ⟨w2, b, c, _, _, rfl⟩ |
      ⟨w2, b, c, w3, b3, _, _, _, rfl⟩ | ⟨w2, b, _, rfl⟩⟩
  · rfl
  · rfl
  · simp at hok
  · simp at hok
  · simp at hok

/-- Witness for C10: an engine that fails on its second call (the first bisection midpoint);
`run`, entered with `limit = 7`, returns `false` and `limit` is still `7`. -/
theorem run_false_keeps_limit_witness :
    (Hybrid.defaults.run (failingOracle 2 (fun _ => 0)) (19 / 20) 1 ⟨rooVar 0 1 0, 0, []⟩ 7 none
        = .ret ⟨false, 7, ⟨rooVar 0 1 (1 / 2), 2, [1, 1 / 2]⟩, ⟨0, 1, (1, 0), (0, 0)⟩, false⟩) ∧
    (7 : ℚ) = 7 :=
  ⟨by decide!,
    run_false_keeps_limit Hybrid.defaults (failingOracle 2 (fun _ => 0)) (19 / 20) 1
      ⟨rooVar 0 1 0, 0, []⟩ 7 none
      ⟨false, 7, ⟨rooVar 0 1 (1 / 2), 2, [1, 1 / 2]⟩, ⟨0, 1, (1, 0), (0, 0)⟩, false⟩ (by decide!) rfl⟩

/-! ## Failure of the first batch -/

/-- C11: if the engine returns the null pointer on the first batch that `eval` requests, then
for either value of `adaptive`, any `clsTarget` and any fuel, `eval` returns the pair
`(-1, -1)`, with `r` set to the requested value (clipped into the range of `r`, as `setVal`
does) and exactly one call, at that value of `r`, added to the call log. -/
theorem eval_first_batch_failure {σ ρ : Type} (h : Hybrid) (C : HybridCalculatorOriginal σ ρ)
    (fuel : Nat) (w : World σ) (v : ℚ) (adaptive : Bool) (clsTarget : ℚ)
    (hfail : (C.GetHypoTest w.hc (w.r.setVal v).val).2 = none) :
    h.eval C fuel w v adaptive clsTarget
      = .ret (⟨w.r.setVal v, (C.GetHypoTest w.hc (w.r.setVal v).val).1,
          w.calls ++ [(w.r.setVal v).val]⟩, (-1, -1)) := by
  have hg : C.GetHypoTest w.hc (w.r.setVal v).val
      = ((C.GetHypoTest w.hc (w.r.setVal v).val).1, none) := by
    rw [← hfail]
  exact eval_none h C fuel w v clsTarget adaptive _ hg

/-- Witness for C11: the engine that fails on its first call, asked adaptively at `r = 3`. -/
theorem eval_first_batch_failure_witness :
    ((failingOracle 1 (fun _ => 0)).GetHypoTest (⟨rooVar 0 8 0, 0, []⟩ : World Nat).hc
        ((rooVar 0 8 0).setVal 3).val).2 = none ∧
    Hybrid.defaults.eval (failingOracle 1 (fun _ => 0)) 5 ⟨rooVar 0 8 0, 0, []⟩ 3 true (1 / 20)
      = .ret (⟨(rooVar 0 8 0).setVal 3,
          ((failingOracle 1 (fun _ => 0)).GetHypoTest (⟨rooVar 0 8 0, 0, []⟩ : World Nat).hc
            ((rooVar 0 8 0).setVal 3).val).1,
          ([] : List ℚ) ++ [((rooVar 0 8 0).setVal 3).val]⟩, (-1, -1)) :=
  ⟨by decide!,
    eval_first_batch_failure Hybrid.defaults (failingOracle 1 (fun _ => 0)) 5
      ⟨rooVar 0 8 0, 0, []⟩ 3 true (1 / 20) (by decide!)⟩

/-! ## Validation of the options -/

/-- C12: `applyOptions` returns (rather than aborting) exactly when `testStat_` is the string
"LEP" or the string "TEV"; the comparison is case-sensitive ("lep" and "Tev" abort); and
whether it returns or aborts, `rInterval_` has been set to whether the `rInterval` option was
given (a non-zero count) and `testStat_` is unchanged. -/
theorem applyOptions_accepts_iff (h : Hybrid) (count : Nat) :
    ((h.applyOptions count).isAccepted = true ↔ (h.testStat_ = "LEP" ∨ h.testStat_ = "TEV")) ∧
    ((h.applyOptions count).isAccepted = false ↔ (h.testStat_ ≠ "LEP" ∧ h.testStat_ ≠ "TEV")) ∧
    (h.applyOptions count).options.rInterval_ = decide (count ≠ 0) ∧
    (h.applyOptions count).options.testStat_ = h.testStat_ ∧
    ({ h with testStat_ := "lep" }.applyOptions count).isAccepted = false ∧
    ({ h with testStat_ := "Tev" }.applyOptions count).isAccepted = false := by
  have key : ∀ g : Hybrid,
      ((g.applyOptions count).isAccepted = true ↔ (g.testStat_ = "LEP" ∨ g.testStat_ = "TEV")) ∧
      (g.applyOptions count).options.rInterval_ = decide (count ≠ 0) ∧
      (g.applyOptions count).options.testStat_ = g.testStat_ := by
    intro g
    unfold Hybrid.applyOptions
    by_cases hc : g.testStat_ ≠ "LEP" ∧ g.testStat_ ≠ "TEV"
    · simp only [if_pos hc, Applied.isAccepted, Applied.options]
      refine ⟨⟨fun hf => (by cases hf), fun ho => ?_⟩, trivial, trivial⟩
      rcases ho with ho | ho
      · exact absurd ho hc.1
      · exact absurd ho hc.2
    · simp only [if_neg hc, Applied.isAccepted, Applied.options]
      refine ⟨⟨fun _ => ?_, fun _ => trivial⟩, trivial, trivial⟩
      by_contra hno
      exact hc ⟨fun h1 => hno (Or.inl h1), fun h2 => hno (Or.inr h2)⟩
  refine ⟨(key h).1, ?_, (key h).2.1, (key h).2.2, ?_, ?_⟩
  · rw [← Bool.not_eq_true, (key h).1, not_or]
  · have := (key { h with testStat_ := "lep" }).1
    rw [← Bool.not_eq_true, this]
    simp only
    decide
  · have := (key { h with testStat_ := "Tev" }).1
    rw [← Bool.not_eq_true, this]
    simp only
    decide

/-! ## The endpoint estimates at the start of bisection -/

/-- C13, evaluated on the code: with statistic `max(0, 1 - 0.99 r)`, `cl = 0.95` and
`rMax = 1`, the last (and only) bracket-expansion evaluation returns `(0.01, 0)` and breaks the
loop, but that estimate lives in the loop-local `clsMax` of line 65: bisection never moves
`rMax` in this run and ends with the outer `clsMax` still `(0, 0)`, the value of line 60. In
the example scenario (`max(0, 1 - r/5)`) the last expansion estimate is `0.8`, on the same side
of `clsTarget` as the first midpoint estimate `0.9`, yet the first pass moves `rMin` (not
`rMax`) to the midpoint, because the comparison uses `(0, 0)`. -/
theorem bisection_ignores_last_expansion_estimate (n : Nat) :
    Hybrid.defaults.eval (exactOracle (linearStat (100 / 99))) (n + 4) (startWorld 1) 1 false
        (-1) = .ret (⟨rooVar 0 1 1, (), [1]⟩, (1 / 100, 0))
    ∧ Hybrid.defaults.expandLoop (exactOracle (linearStat (100 / 99))) (19 / 20) 1 (n + 4)
        (n + 4) (startWorld 1) = .ret (⟨rooVar 0 1 1, (), [1]⟩, true)
    ∧ Hybrid.defaults.run (exactOracle (linearStat (100 / 99))) (19 / 20) (n + 4) (startWorld 1)
        0 none
      = .ret ⟨true, 31 / 32, ⟨rooVar 0 1 (15 / 16), (), [1, 1 / 2, 3 / 4, 7 / 8, 15 / 16]⟩,
          ⟨15 / 16, 1, (23 / 320, 0), (0, 0)⟩, false⟩
    ∧ Hybrid.defaults.eval (exactOracle (linearStat 5)) 1 (startWorld 1) 1 false (-1)
      = .ret (⟨rooVar 0 1 1, (), [1]⟩, (4 / 5, 0))
    ∧ Hybrid.defaults.bisectStep (exactOracle (linearStat 5)) (1 - 19 / 20) 1
        ⟨rooVar 0 1 1, (), [1]⟩ ⟨0, 1, (1, 0), (0, 0)⟩
      = .ret (.next ⟨rooVar 0 1 (1 / 2), (), [1, 1 / 2]⟩ ⟨1 / 2, 1, (9 / 10, 0), (0, 0)⟩) := by
  refine ⟨?_, ?_, ?_, by decide!, by decide!⟩
  · exact eval_mono _ _ 4 (n + 4) _ _ _ _ _ (by omega) (by decide!) (by simp)
  · exact expandLoop_mono _ _ _ _ 4 (n + 4) (by omega) 4 (n + 4) _ _ (by omega)
      (by decide!) (by simp)
  · exact run_mono _ _ _ 4 (n + 4) (by omega) _ _ _ _ (by decide!) (by simp)

/-! ## The two sides of the interval refinement -/

/-- C14, evaluated on the code: refinement around the direct hit `1/2` of the statistic
`stepStat 0.05` (bracket `[0, 1]`, `clsMin = (1, 0)`). The first low-side evaluation, at
`1/4`, returns exactly `clsTarget = 0.05`, well within `clsAccuracy_`; the loop of line 102
tests `clsMin`, which its body never assigns, and goes on to evaluate at `3/8`, `7/16` and
`15/32`, stopping only when `r` passes the bound `0.45`. -/
theorem low_side_loop_ignores_its_evaluations (n : Nat) :
    Hybrid.defaultsWithInterval.refineLow (exactOracle (stepStat (1 / 20))) (1 / 20) (n + 1)
        (1 / 2) (1 / 2 - 1 / 2 * max (1 / 10) (1 / 20 * (1 / 2))) (1, 0) (n + 5)
        ⟨rooVar 0 1 0, (), [1, 1 / 2]⟩ 0 (0, 0)
      = .ret (⟨rooVar 0 1 (15 / 32), (), [1, 1 / 2, 1 / 4, 3 / 8, 7 / 16, 15 / 32]⟩, 15 / 32,
          (1 / 20, 0))
    ∧ Hybrid.defaultsWithInterval.eval (exactOracle (stepStat (1 / 20))) 1
        ⟨rooVar 0 1 0, (), [1, 1 / 2]⟩ (1 / 4) true (1 / 20)
      = .ret (⟨rooVar 0 1 (1 / 4), (), [1, 1 / 2, 1 / 4]⟩, (1 / 20, 0))
    ∧ |(1 / 20 : ℚ) - 1 / 20| < Hybrid.defaultsWithInterval.clsAccuracy_ := by
  refine ⟨?_, by decide!, by decide!⟩
  exact refineLow_mono _ _ _ 1 (n + 1) (by omega) _ _ _ 5 (n + 5) _ _ _ _ (by omega)
    (by decide!) (by simp)

/-- C15, evaluated on the code: the statistics `stepStat 0.05` and `stepStat 1` agree at
every point from the found limit `1/2` upwards (so during expansion, bisection and on the high
side) and differ only below it. With the first, the low-side loop leaves `clsMax = (0.05, 0)`,
the high-side loop of line 107 makes no evaluation and the final `rMax` is `1`; with the
second, the low-side loop leaves `clsMax = (1, 0)`, the high-side loop evaluates at `3/4`,
`5/8`, `9/16`, `17/32` and the final `rMax` is `17/32`. -/
theorem high_side_depends_on_low_side (n : Nat) :
    (∀ r : ℚ, 1 / 2 ≤ r → stepStat (1 / 20) r = stepStat 1 r)
    ∧ Hybrid.defaultsWithInterval.run (exactOracle (stepStat (1 / 20))) (19 / 20) (n + 5)
        (startWorld 1) 0 none
      = .ret ⟨true, 1 / 2, ⟨rooVar 0 1 1, (), [1, 1 / 2, 1 / 4, 3 / 8, 7 / 16, 15 / 32]⟩,
          ⟨15 / 32, 1, (1, 0), (1 / 20, 0)⟩, true⟩
    ∧ Hybrid.defaultsWithInterval.run (exactOracle (stepStat 1)) (19 / 20) (n + 5)
        (startWorld 1) 0 none
      = .ret ⟨true, 1 / 2, ⟨rooVar 0 1 (17 / 32), (),
            [1, 1 / 2, 1 / 4, 3 / 8, 7 / 16, 15 / 32, 3 / 4, 5 / 8, 9 / 16, 17 / 32]⟩,
          ⟨15 / 32, 17 / 32, (1, 0), (1, 0)⟩, true⟩ := by
  refine ⟨?_, ?_, ?_⟩
  · intro r hr
    unfold stepStat
    have hlt : ¬ r < 1 / 2 := not_lt.2 hr
    simp only [hlt, if_false]
  · exact run_mono _ _ _ 5 (n + 5) (by omega) _ _ _ _ (by decide!) (by simp)
  · exact run_mono _ _ _ 5 (n + 5) (by omega) _ _ _ _ (by decide!) (by simp)

/-! ## The upper estimate during bisection -/

section UpperEstimate

variable {σ ρ : Type}

/-- A pass through the bisection body never stores an estimate above the target in
`clsMax`, provided the one it found there was not above the target. -/
theorem bisectStep_clsMax (h : Hybrid) (C : HybridCalculatorOriginal σ ρ) (t : ℚ) (f : Nat)
    (w : World σ) (b : Bracket) (x : Step σ) (hb : b.clsMax.1 ≤ t)
    (hx : h.bisectStep C t f w b = .ret x) : x.bracket.clsMax.1 ≤ t := by
  obtain ⟨w1, c, _, hcase⟩ := bisectStep_ret h C t f w b x hx
  have hfalse : decide (b.clsMax.1 > t) = false := by simpa using hb
  rcases hcase with ⟨rfl, _⟩ | ⟨rfl, _⟩ | ⟨rfl, _, _, hd⟩ | ⟨rfl, _⟩
  · exact hb
  · exact hb
  · rw [hfalse] at hd
    simpa [Step.bracket] using hd
  · exact hb

theorem bisectIter_clsMax (h : Hybrid) (C : HybridCalculatorOriginal σ ρ) (t : ℚ) (f : Nat) :
    ∀ (k : Nat) (w : World σ) (b : Bracket) (w' : World σ) (b' : Bracket),
      b.clsMax.1 ≤ t → h.bisectIter C t f k w b = some (w', b') → b'.clsMax.1 ≤ t := by
  intro k
  induction k with
  | zero =>
    intro w b w' b' hb hk
    simp only [Hybrid.bisectIter, Option.some.injEq, Prod.mk.injEq] at hk
    rw [← hk.2]; exact hb
  | succ k ih =>
    intro w b w' b' hb hk
    simp only [Hybrid.bisectIter] at hk
    cases hs : h.bisectStep C t f w b with
    | ret s =>
      rw [hs] at hk
      cases s with
      | next w1 b1 =>
        simp only at hk
        split_ifs at hk with hkeep
        exact ih w1 b1 w' b' (bisectStep_clsMax h C t f w b _ hb hs) hk
      | failed w1 b1 => simp at hk
      | lucky w1 b1 c => simp at hk
    | nullDeref => rw [hs] at hk; simp at hk
    | outOfFuel => rw [hs] at hk; simp at hk

end UpperEstimate

/-- C16 as stated fails on the code once the interval refinement runs: with the statistic
`stepStat 0.5`, `cl = 0.95` and the `rInterval` flag, both refinement loops assign their
evaluations to the outer `clsMax`, and `run` ends with `clsMax = (1, 0)`, above
`clsTarget = 0.05`. -/
theorem refinement_raises_clsMax :
    Hybrid.defaultsWithInterval.run (exactOracle (stepStat (1 / 2))) (19 / 20) 5 (startWorld 1)
        0 none
      = .ret ⟨true, 1 / 2, ⟨rooVar 0 1 (17 / 32), (),
            [1, 1 / 2, 1 / 4, 3 / 8, 7 / 16, 15 / 32, 3 / 4, 5 / 8, 9 / 16, 17 / 32]⟩,
          ⟨15 / 32, 17 / 32, (1, 0), (1, 0)⟩, true⟩
    ∧ (19 / 20 : ℚ) ≤ 1 ∧ ¬ ((1 : ℚ) ≤ 1 - 19 / 20) := by
  refine ⟨by decide!, by decide!, by decide!⟩

/-- C16, amended to the bisection loop: for every engine and every `cl ≤ 1`, at the head of
every pass of the bisection loop the outer `clsMax` has a value not above `clsTarget`, and so
has the bracket every pass leaves. A pass that moves an edge evaluates the midpoint of the
bracket, clipped into the range of `r` as `setVal` does (the midpoint itself when the starting
bracket `[0, R]` lies in the range of `r`), and makes the evaluated point the new `rMin`
exactly when its estimate value is above `clsTarget`, and then that value is above
`clsTarget + clsAccuracy_`; otherwise the evaluated point becomes the new `rMax`, and its
estimate value is below `clsTarget - clsAccuracy_`. -/
theorem bisection_clsMax_invariant {σ ρ : Type} (h : Hybrid) (C : HybridCalculatorOriginal σ ρ)
    (cl : ℚ) (fuel : Nat) (w1 : World σ) (R : ℚ) (hcl : cl ≤ 1) (k : Nat) (w : World σ)
    (b : Bracket)
    (hk : h.bisectIter C (1 - cl) fuel k w1 ⟨0, R, (1, 0), (0, 0)⟩ = some (w, b)) :
    b.clsMax.1 ≤ 1 - cl ∧
    (∀ x, h.bisectStep C (1 - cl) fuel w b = .ret x → x.bracket.clsMax.1 ≤ 1 - cl) ∧
    ∀ w' b', h.bisectStep C (1 - cl) fuel w b = .ret (.next w' b') →
      ∃ c, h.eval C fuel w (1 / 2 * (b.rMin + b.rMax)) true (1 - cl) = .ret (w', c) ∧
        w'.r.val = clip w.r.min w.r.max (1 / 2 * (b.rMin + b.rMax)) ∧
        (w1.r.min ≤ 0 → 0 ≤ R → R ≤ w1.r.max → w'.r.val = 1 / 2 * (b.rMin + b.rMax)) ∧
        ((c.1 > 1 - cl ∧ c.1 > 1 - cl + h.clsAccuracy_ ∧
            b' = { b with rMin := w'.r.val, clsMin := c }) ∨
         (¬ c.1 > 1 - cl ∧ c.1 < 1 - cl - h.clsAccuracy_ ∧
            b' = { b with rMax := w'.r.val, clsMax := c })) := by
  have h0 : (⟨0, R, (1, 0), (0, 0)⟩ : Bracket).clsMax.1 ≤ 1 - cl := by
    show (0 : ℚ) ≤ 1 - cl
    linarith
  have hb : b.clsMax.1 ≤ 1 - cl := bisectIter_clsMax h C (1 - cl) fuel k w1 _ w b h0 hk
  refine ⟨hb, fun x hx => bisectStep_clsMax h C (1 - cl) fuel w b x hb hx, ?_⟩
  intro w' b' hx
  obtain ⟨w2, c, hev, hcase⟩ := bisectStep_ret h C (1 - cl) fuel w b _ hx
  have hval : w2.r.val = clip w.r.min w.r.max (1 / 2 * (b.rMin + b.rMax)) := by
    rw [(eval_ret_world h C fuel w _ true (1 - cl) _ _ hev).1]; rfl
  have hmid : w1.r.min ≤ 0 → 0 ≤ R → R ≤ w1.r.max →
      w'.r.val = 1 / 2 * (b.rMin + b.rMax) := fun g1 g2 g3 =>
    (bisectStep_inRange h C (1 - cl) fuel w b _
      (bisectIter_inRange h C (1 - cl) fuel k w1 _ w b ⟨g1, g2, g3⟩ hk) hx).1
  have hfalse : decide (b.clsMax.1 > 1 - cl) = false := by simpa using hb
  rcases hcase with ⟨he, _⟩ | ⟨he, _⟩ | ⟨he, _, hna, hd⟩ | ⟨he, _, hna, hd⟩
  · cases he
  · cases he
  · simp only [Step.next.injEq] at he
    obtain ⟨rfl, rfl⟩ := he
    rw [hfalse] at hd
    have hle : c.1 ≤ 1 - cl := by simpa using hd
    refine ⟨c, hev, hval, hmid, Or.inr ⟨not_lt.2 hle, ?_, rfl⟩⟩
    rw [not_le, abs_of_nonpos (by linarith)] at hna
    linarith
  · simp only [Step.next.injEq] at he
    obtain ⟨rfl, rfl⟩ := he
    rw [hfalse] at hd
    have hgt : c.1 > 1 - cl := by simpa using hd
    refine ⟨c, hev, hval, hmid, Or.inl ⟨hgt, ?_, rfl⟩⟩
    rw [not_le, abs_of_pos (by linarith)] at hna
    linarith

/-- Witness for C16: the example scenario started from `rMax = 8`; at the head of the second
pass the bracket is `[4, 8]` with `clsMax = (0, 0)`. -/
theorem bisection_clsMax_invariant_witness :
    ((19 / 20 : ℚ) ≤ 1 ∧
      Hybrid.defaults.bisectIter (exactOracle (linearStat 5)) (1 - 19 / 20) 1 1
        ⟨rooVar 0 8 8, (), [8]⟩ ⟨0, 8, (1, 0), (0, 0)⟩
        = some (⟨rooVar 0 8 4, (), [8, 4]⟩, ⟨4, 8, (1 / 5, 0), (0, 0)⟩)) ∧
    ((0 : ℚ) ≤ 1 - 19 / 20 ∧
    (∀ x, Hybrid.defaults.bisectStep (exactOracle (linearStat 5)) (1 - 19 / 20) 1
        ⟨rooVar 0 8 4, (), [8, 4]⟩ ⟨4, 8, (1 / 5, 0), (0, 0)⟩ = .ret x →
      x.bracket.clsMax.1 ≤ 1 - 19 / 20) ∧
    ∀ w' b', Hybrid.defaults.bisectStep (exactOracle (linearStat 5)) (1 - 19 / 20) 1
        ⟨rooVar 0 8 4, (), [8, 4]⟩ ⟨4, 8, (1 / 5, 0), (0, 0)⟩ = .ret (.next w' b') →
      ∃ c, Hybrid.defaults.eval (exactOracle (linearStat 5)) 1 ⟨rooVar 0 8 4, (), [8, 4]⟩
          (1 / 2 * (4 + 8)) true (1 - 19 / 20) = .ret (w', c) ∧
        w'.r.val = clip (rooVar 0 8 4).min (rooVar 0 8 4).max (1 / 2 * (4 + 8)) ∧
        ((rooVar 0 8 8).min ≤ 0 → (0 : ℚ) ≤ 8 → 8 ≤ (rooVar 0 8 8).max →
          w'.r.val = 1 / 2 * (4 + 8)) ∧
        ((c.1 > 1 - 19 / 20 ∧ c.1 > 1 - 19 / 20 + Hybrid.defaults.clsAccuracy_ ∧
            b' = ⟨w'.r.val, 8, c, (0, 0)⟩) ∨
         (¬ c.1 > 1 - 19 / 20 ∧ c.1 < 1 - 19 / 20 - Hybrid.defaults.clsAccuracy_ ∧
            b' = ⟨4, w'.r.val, (1 / 5, 0), c⟩))) :=
  ⟨⟨by decide!, by decide!⟩,
    bisection_clsMax_invariant Hybrid.defaults (exactOracle (linearStat 5)) (19 / 20) 1
      ⟨rooVar 0 8 8, (), [8]⟩ 8 (by decide!) 1 ⟨rooVar 0 8 4, (), [8, 4]⟩
      ⟨4, 8, (1 / 5, 0), (0, 0)⟩ (by decide!)⟩

/-! ## The bound on the passes of bisection -/

end HybridLimit

